import Mathlib

/-!
Verification development for the flight-aggregation backend.

Shallow embedding of the core logic of the repository:

* `utils/get_flights.py` — query normalization (`normalize_price`, `map_airlines`),
  retry logic (`retry_with_backoff`), and the cache-aware enrichment orchestration
  (`enrich_flights_with_cache_async`, `enrich_flights_no_cache_async`,
  `get_flight_with_aggregator`).
* `utils/mongoDB.py` — cache-key derivation (`generate_cache_key`) and the
  TTL-checked cache lookup (`get_api_cache_result`).
* `utils/rag_combo_builder.py` and `utils/rag_platform_combo_retriever.py` —
  discount extraction and the sequential discount-combination engine
  (`extract_discount_value`, `calculate_combo_price`, `build_offer_combo`).

Modelling conventions:

* Python strings are modelled as `List Char`; `None`-or-value arguments as `Option`.
* Real-valued prices and times are modelled as `ℚ` (the Python code uses floats;
  the floating-point rounding of individual arithmetic operations is abstracted,
  the claims under study are about the exact arithmetic structure).
* I/O oracles (the upstream search API, the cache collection) are passed in as
  explicit functions, so each code path becomes a pure function whose outputs
  include the observable traces (cache lookups issued, upstream calls issued,
  batch writes staged).
-/

namespace FlightSpec

/-! ## `retry_with_backoff` (utils/get_flights.py lines 88-103)

The decorator runs `func` for `attempt in range(max_retries)`; it returns the
first successful result, re-raises the exception of the final attempt, and
sleeps `min(initial_delay * 2 ** attempt, max_delay)` between a failed attempt
and the next one.  The wrapped callable is modelled as an attempt-indexed
oracle `f : Nat → Except E A`.  The result records the Python return value
(`none` models the implicit `None` returned when the loop body never runs,
i.e. `max_retries = 0`), the number of invocations of `f`, and the list of
sleep delays in order. -/

def retryAux {E A : Type} (f : Nat → Except E A) (maxRetries initialDelay maxDelay : Nat) :
    Nat → Nat → Option (Except E A) × Nat × List Nat
  | _, 0 => (none, 0, [])
  | attempt, rem+1 =>
    match f attempt with
    | .ok v => (some (.ok v), 1, [])
    | .error e =>
      if attempt = maxRetries - 1 then (some (.error e), 1, [])
      else
        let d := min (initialDelay * 2 ^ attempt) maxDelay
        let r := retryAux f maxRetries initialDelay maxDelay (attempt + 1) rem
        (r.1, r.2.1 + 1, d :: r.2.2)

/-- Model of `retry_with_backoff(max_retries, initial_delay, max_delay)(func)`:
the loop starts at attempt 0 with `max_retries` iterations remaining. -/
def retry_with_backoff {E A : Type} (maxRetries initialDelay maxDelay : Nat)
    (f : Nat → Except E A) : Option (Except E A) × Nat × List Nat :=
  retryAux f maxRetries initialDelay maxDelay 0 maxRetries

theorem retryAux_succ_ok {E A : Type} {f : Nat → Except E A} {v : A}
    {maxR d m attempt rem : Nat} (hf : f attempt = .ok v) :
    retryAux f maxR d m attempt (rem + 1) = (some (.ok v), 1, []) := by
  conv_lhs => rw [retryAux]
  rw [hf]

theorem retryAux_succ_last {E A : Type} {f : Nat → Except E A} {e : E}
    {maxR d m attempt rem : Nat} (hf : f attempt = .error e)
    (hl : attempt = maxR - 1) :
    retryAux f maxR d m attempt (rem + 1) = (some (.error e), 1, []) := by
  conv_lhs => rw [retryAux]
  rw [hf]
  simp [hl]

theorem retryAux_succ_error {E A : Type} {f : Nat → Except E A} {e : E}
    {maxR d m attempt rem : Nat} (hf : f attempt = .error e)
    (hne : attempt ≠ maxR - 1) :
    retryAux f maxR d m attempt (rem + 1) =
      ((retryAux f maxR d m (attempt + 1) rem).1,
        (retryAux f maxR d m (attempt + 1) rem).2.1 + 1,
        min (d * 2 ^ attempt) m :: (retryAux f maxR d m (attempt + 1) rem).2.2) := by
  conv_lhs => rw [retryAux]
  rw [hf]
  simp [hne]

theorem retryAux_ok {E A : Type} (f : Nat → Except E A) (es : Nat → E) (v : A)
    (maxR d m : Nat) :
    ∀ (rem a k : Nat), a + rem = maxR → k < rem →
      (∀ i, a ≤ i → i < a + k → f i = .error (es i)) → f (a + k) = .ok v →
      retryAux f maxR d m a rem =
        (some (.ok v), k + 1, (List.range k).map fun j => min (d * 2 ^ (a + j)) m) := by
  intro rem
  induction rem with
  | zero => intro a k _ hk; omega
  | succ n ih =>
    intro a k hsum hk hfail hok
    cases k with
    | zero =>
      have h0 : f a = .ok v := by simpa using hok
      rw [retryAux_succ_ok h0]
      simp
    | succ k2 =>
      have hfa : f a = .error (es a) := hfail a (Nat.le_refl a) (by omega)
      have hne : a ≠ maxR - 1 := by omega
      have ihres := ih (a + 1) k2 (by omega) (by omega)
        (fun i h1 h2 => hfail i (by omega) (by omega))
        (by rw [show a + 1 + k2 = a + (k2 + 1) by omega]; exact hok)
      rw [retryAux_succ_error hfa hne, ihres]
      simp only [Prod.mk.injEq, true_and]
      simp only [List.range_succ_eq_map, List.map_cons, List.map_map, Nat.add_zero]
      refine congrArg₂ List.cons rfl ?_
      refine List.map_congr_left fun j _ => ?_
      simp only [Function.comp_apply]
      have hj : a + 1 + j = a + Nat.succ j := by omega
      rw [hj]

theorem retryAux_fail {E A : Type} (f : Nat → Except E A) (es : Nat → E)
    (maxR d m : Nat) :
    ∀ (rem a : Nat), a + rem = maxR → 1 ≤ rem →
      (∀ i, f i = .error (es i)) →
      retryAux f maxR d m a rem =
        (some (.error (es (maxR - 1))), rem,
          (List.range (rem - 1)).map fun j => min (d * 2 ^ (a + j)) m) := by
  intro rem
  induction rem with
  | zero => intro a _ h1; omega
  | succ n ih =>
    intro a hsum _ hfail
    cases n with
    | zero =>
      have ha : a = maxR - 1 := by omega
      rw [retryAux_succ_last (hfail a) ha, ha]
      simp
    | succ n2 =>
      have hne : a ≠ maxR - 1 := by omega
      have ihres := ih (a + 1) (by omega) (by omega) hfail
      rw [retryAux_succ_error (hfail a) hne, ihres]
      simp only [Prod.mk.injEq, true_and]
      simp only [Nat.succ_sub_one, List.range_succ_eq_map, List.map_cons, List.map_map,
        Nat.add_zero]
      refine congrArg₂ List.cons rfl ?_
      refine List.map_congr_left fun j _ => ?_
      simp only [Function.comp_apply]
      have hj : a + 1 + j = a + Nat.succ j := by omega
      rw [hj]

/-- C5: Retry bound and backoff schedule for `retry_with_backoff`.  For every
attempt-indexed oracle `f` and `maxRetries ≥ 1`: (a) if `f` fails on its first
`k < maxRetries` invocations and then succeeds with `v`, the wrapper returns
`v` after exactly `k + 1` invocations, having slept
`min(initialDelay * 2 ^ attempt, maxDelay)` after each failed attempt
`attempt = 0, …, k-1`; (b) if `f` fails on all `maxRetries` invocations, the
wrapper re-raises the exception of the final attempt after exactly
`maxRetries` invocations, having slept the same schedule for attempts
`0, …, maxRetries - 2`. -/
theorem retry_with_backoff_spec {E A : Type} (f : Nat → Except E A) (es : Nat → E) (v : A)
    (maxRetries initialDelay maxDelay k : Nat) :
    (k < maxRetries →
      (∀ i, i < k → f i = .error (es i)) → f k = .ok v →
      retry_with_backoff maxRetries initialDelay maxDelay f =
        (some (.ok v), k + 1,
          (List.range k).map fun a => min (initialDelay * 2 ^ a) maxDelay)) ∧
    (1 ≤ maxRetries →
      (∀ i, f i = .error (es i)) →
      retry_with_backoff maxRetries initialDelay maxDelay f =
        (some (.error (es (maxRetries - 1))), maxRetries,
          (List.range (maxRetries - 1)).map fun a => min (initialDelay * 2 ^ a) maxDelay)) := by
  constructor
  · intro hk hfail hok
    have h := retryAux_ok f es v maxRetries initialDelay maxDelay maxRetries 0 k
      (by omega) hk (fun i h1 h2 => hfail i (by omega)) (by simpa using hok)
    simpa [retry_with_backoff] using h
  · intro h1 hfail
    have h := retryAux_fail f es maxRetries initialDelay maxDelay maxRetries 0
      (by omega) h1 hfail
    simpa [retry_with_backoff] using h

/-- Witness for C5: with the source's configuration (4, 1, 8), an oracle that
fails twice then succeeds returns the success after 3 invocations with delays
[1, 2]; an always-failing oracle raises the final error after 4 invocations
with delays [1, 2, 4]. -/
theorem retry_with_backoff_spec_witness :
    retry_with_backoff 4 1 8 (fun i => if i < 2 then .error i else .ok 42) =
      (some (.ok 42), 3, [1, 2]) ∧
    retry_with_backoff 4 1 8 (fun i => (.error i : Except Nat Nat)) =
      (some (.error 3), 4, [1, 2, 4]) := by
  constructor
  · have h := (retry_with_backoff_spec (fun i => if i < 2 then .error i else .ok 42)
      (fun i => i) 42 4 1 8 2).1 (by omega) (fun i hi => by
        simp [if_pos hi]) (by simp)
    simpa using h
  · have h := (retry_with_backoff_spec (fun i => (.error i : Except Nat Nat))
      (fun i => i) 0 4 1 8 0).2 (by omega) (fun i => rfl)
    simpa using h

/-! ## TTL-checked cache lookup (utils/mongoDB.py lines 109-162)

`get_api_cache_result` hashes the request into a key, fetches the document
stored under that key, and returns the payload only when
`now - cached_at < timedelta(minutes=CACHE_TTL_MINUTES)`; a stale document,
or one without a valid timestamp, is deleted (`coll.delete_one`) and the
lookup reports a miss.  The state of the single cache slot addressed by the
request key is modelled as `Option (CachedDoc α)`; the function returns the
lookup result together with the slot state after the lookup.  Timestamps are
in minutes, as rationals (real-valued time). -/

def CACHE_TTL_MINUTES : ℚ := 4300

structure CachedDoc (α : Type) where
  data : α
  cached_at : Option ℚ
  deriving DecidableEq, Repr

def get_api_cache_result {α : Type} (store : Option (CachedDoc α)) (now : ℚ) :
    Option α × Option (CachedDoc α) :=
  match store with
  | none => (none, none)
  | some doc =>
    match doc.cached_at with
    | some t0 =>
      if now - t0 < CACHE_TTL_MINUTES then (some doc.data, some doc)
      else (none, none)
    | none => (none, none)

/-- C3: TTL correctness of the cache lookup.  For an entry written at `t0`, a
lookup at `t` is a hit (returning the stored payload, leaving the entry in
place) when `t - t0 < TTL`; it is a miss when `t - t0 > TTL`, and in that
stale case the reader deletes the entry; a lookup on a slot that was never
written is a miss. -/
theorem get_api_cache_result_ttl {α : Type} (d : α) (t0 t : ℚ) :
    (t - t0 < CACHE_TTL_MINUTES →
      get_api_cache_result (some ⟨d, some t0⟩) t = (some d, some ⟨d, some t0⟩)) ∧
    (t - t0 > CACHE_TTL_MINUTES →
      get_api_cache_result (some ⟨d, some t0⟩) t = (none, none)) ∧
    get_api_cache_result (none : Option (CachedDoc α)) t = (none, none) := by
  refine ⟨fun h => ?_, fun h => ?_, rfl⟩
  · simp [get_api_cache_result, h]
  · simp [get_api_cache_result, not_lt.mpr (le_of_lt h)]

/-- Witness for C3: a payload written at minute 0 is a hit at minute 4299.5
and a miss (with the entry deleted) at minute 4300.5. -/
theorem get_api_cache_result_ttl_witness :
    get_api_cache_result (some ⟨(7 : Nat), some 0⟩) (8599 / 2) =
      (some 7, some ⟨7, some 0⟩) ∧
    get_api_cache_result (some ⟨(7 : Nat), some 0⟩) (8601 / 2) = (none, none) := by
  constructor
  · exact (get_api_cache_result_ttl 7 0 (8599 / 2)).1 (by norm_num [CACHE_TTL_MINUTES])
  · exact (get_api_cache_result_ttl 7 0 (8601 / 2)).2.1 (by norm_num [CACHE_TTL_MINUTES])

/-! ## Cache-aware enrichment orchestration (utils/get_flights.py lines 181-433)

A flight entry is relevant to enrichment only through its `booking_token`
(`safe_get_token`); `if not token: continue` drops both a missing token and an
empty-string token.  A booking-detail response is relevant through its
`selected_flights` and `booking_options` fields; `fetch_booking_options_async`
returns `None` on exception, and the callers additionally treat a falsy
(empty) response like a failure, so the per-token outcome oracles are
`Token → Option BookingData` (`none` = exception / `None` / empty response;
a *cache* oracle `none` likewise covers both a cache miss and a cache-lookup
exception, which the code folds into the miss path).  The upstream API
`GoogleSearch(params).get_dict()` underlying one detail fetch is modelled as
an attempt-indexed oracle so that the presence or absence of retry is
observable. -/

abbrev Token : Type := List Char

structure SelectedFlight (Seg : Type) where
  flights : List Seg
  deriving DecidableEq

structure BookingData (Seg Opt : Type) where
  selected_flights : List (SelectedFlight Seg)
  booking_options : List Opt
  deriving DecidableEq

structure Flight where
  booking_token : Option Token
  deriving DecidableEq

structure EnrichedFlight (Seg Opt : Type) where
  flight_data : List Seg
  booking_options : List Opt
  deriving DecidableEq

/-- Model of `safe_get_token` combined with the caller's `if not token:
continue` guard: a missing token or an empty-string token yields `none`. -/
def safe_get_token (f : Flight) : Option Token :=
  match f.booking_token with
  | none => none
  | some t => if t = ([] : List Char) then none else some t

/-- Tokens of the token-bearing flights, in input order (the `tasks` list of
both enrichment loops, projected to its token column). -/
def flightTokens : List Flight → List Token
  | [] => []
  | f :: r =>
    match safe_get_token f with
    | none => flightTokens r
    | some t => t :: flightTokens r

/-- Payload extraction shared by all three processing loops:
`selected = data.get("selected_flights", [])`, take `first["flights"]` when
the list is nonempty and the field is truthy, else `[]`. -/
def extractEnriched {Seg Opt : Type} (d : BookingData Seg Opt) : EnrichedFlight Seg Opt :=
  { flight_data :=
      match d.selected_flights with
      | [] => []
      | first :: _ =>
        match first.flights with
        | [] => []
        | x :: r => x :: r
    booking_options := d.booking_options }

/-- Observable trace of one `enrich_flights_*_async` run. -/
structure EnrichTrace (Seg Opt : Type) where
  enriched : List (EnrichedFlight Seg Opt)
  cacheLookups : List Token
  fetchCalls : List Token
  batchWrite : List (Token × BookingData Seg Opt)
  deriving DecidableEq

/-- Shared shape of the two result-processing loops: walk the (token, fetch
outcome) pairs in order; an exception or falsy response is skipped, a success
appends one `EnrichedFlight` and stages one cache-batch entry. -/
def processFetched {Seg Opt : Type} :
    List (Token × Option (BookingData Seg Opt)) →
      List (EnrichedFlight Seg Opt) × List (Token × BookingData Seg Opt)
  | [] => ([], [])
  | (t, r) :: rest =>
    let acc := processFetched rest
    match r with
    | none => acc
    | some d => (extractEnriched d :: acc.1, (t, d) :: acc.2)

/-- Model of `enrich_flights_no_cache_async`: no cache lookups; fetch every
token concurrently; process results in task order; stage the batch write. -/
def enrich_flights_no_cache_async {Seg Opt : Type}
    (fetchO : Token → Option (BookingData Seg Opt)) (filtered : List Flight) :
    EnrichTrace Seg Opt :=
  let toks := flightTokens filtered
  let processed := processFetched (toks.map fun t => (t, fetchO t))
  { enriched := processed.1
    cacheLookups := []
    fetchCalls := toks
    batchWrite := processed.2 }

/-- First loop of `enrich_flights_with_cache_async` over the awaited cache
results: hits are assembled immediately (in order), misses are collected as
fetch tasks (in order). -/
def splitCacheResults {Seg Opt : Type} :
    List (Token × Option (BookingData Seg Opt)) →
      List (EnrichedFlight Seg Opt) × List Token
  | [] => ([], [])
  | (t, r) :: rest =>
    let acc := splitCacheResults rest
    match r with
    | none => (acc.1, t :: acc.2)
    | some d => (extractEnriched d :: acc.1, acc.2)

/-- Model of `enrich_flights_with_cache_async`: one cache lookup per token;
hits are assembled directly; only misses are fetched upstream; fetched
successes are appended after the hits and staged for the batch write. -/
def enrich_flights_with_cache_async {Seg Opt : Type}
    (cacheO fetchO : Token → Option (BookingData Seg Opt)) (filtered : List Flight) :
    EnrichTrace Seg Opt :=
  let toks := flightTokens filtered
  let split := splitCacheResults (toks.map fun t => (t, cacheO t))
  let processed := processFetched (split.2.map fun t => (t, fetchO t))
  { enriched := split.1 ++ processed.1
    cacheLookups := toks
    fetchCalls := split.2
    batchWrite := processed.2 }

/-- Strategy dispatch of `get_flight_with_aggregator`: `is_cached` selects the
cache-checked path, otherwise the direct-fetch path. -/
def enrichDispatch {Seg Opt : Type} (fromCache : Bool)
    (cacheO fetchO : Token → Option (BookingData Seg Opt)) (filtered : List Flight) :
    EnrichTrace Seg Opt :=
  if fromCache then enrich_flights_with_cache_async cacheO fetchO filtered
  else enrich_flights_no_cache_async fetchO filtered

theorem processFetched_eq {Seg Opt : Type}
    (fetchO : Token → Option (BookingData Seg Opt)) (toks : List Token) :
    processFetched (toks.map fun t => (t, fetchO t)) =
      (toks.filterMap (fun t => (fetchO t).map extractEnriched),
        toks.filterMap fun t => (fetchO t).map fun d => (t, d)) := by
  induction toks with
  | nil => rfl
  | cons t r ih =>
    simp only [List.map_cons, processFetched, ih, List.filterMap_cons]
    cases fetchO t <;> simp

theorem splitCacheResults_eq {Seg Opt : Type}
    (cacheO : Token → Option (BookingData Seg Opt)) (toks : List Token) :
    splitCacheResults (toks.map fun t => (t, cacheO t)) =
      (toks.filterMap (fun t => (cacheO t).map extractEnriched),
        toks.filter fun t => (cacheO t).isNone) := by
  induction toks with
  | nil => rfl
  | cons t r ih =>
    simp only [List.map_cons, splitCacheResults, ih, List.filterMap_cons, List.filter_cons]
    cases cacheO t <;> simp

/-- C1: Strategy selection is determined solely by the `fromCache` flag.  When
`fromCache = true`, the orchestrator performs exactly one cache lookup per
token-bearing result (in order) and issues an upstream detail call exactly for
the tokens whose cache lookup missed; when `fromCache = false`, it performs
zero per-token cache lookups and issues an upstream detail call for every
token-bearing result. -/
theorem enrich_strategy_selection {Seg Opt : Type}
    (cacheO fetchO : Token → Option (BookingData Seg Opt)) (filtered : List Flight) :
    (enrichDispatch true cacheO fetchO filtered).cacheLookups = flightTokens filtered ∧
    (enrichDispatch true cacheO fetchO filtered).fetchCalls =
      (flightTokens filtered).filter (fun t => (cacheO t).isNone) ∧
    (enrichDispatch false cacheO fetchO filtered).cacheLookups = [] ∧
    (enrichDispatch false cacheO fetchO filtered).fetchCalls = flightTokens filtered := by
  refine ⟨rfl, ?_, rfl, rfl⟩
  simp only [enrichDispatch, if_pos, enrich_flights_with_cache_async]
  rw [splitCacheResults_eq]

theorem length_fetch_successes {Seg Opt : Type}
    (fetchO : Token → Option (BookingData Seg Opt)) (toks : List Token) :
    (toks.filterMap fun t => (fetchO t).map extractEnriched).length =
      toks.length - (toks.filter fun t => (fetchO t).isNone).length := by
  induction toks with
  | nil => rfl
  | cons t r ih =>
    have hb := List.length_filter_le (fun t => (fetchO t).isNone) r
    simp only [List.filterMap_cons, List.filter_cons]
    cases h : fetchO t
    all_goals simp_all
    all_goals omega

theorem length_withcache_successes {Seg Opt : Type}
    (cacheO fetchO : Token → Option (BookingData Seg Opt)) (toks : List Token) :
    (toks.filterMap fun t => (cacheO t).map extractEnriched).length +
      ((toks.filter fun t => (cacheO t).isNone).filterMap
        fun t => (fetchO t).map extractEnriched).length =
      toks.length - (toks.filter fun t => (cacheO t).isNone && (fetchO t).isNone).length := by
  induction toks with
  | nil => rfl
  | cons t r ih =>
    have hb := List.length_filter_le (fun t => (cacheO t).isNone && (fetchO t).isNone) r
    simp only [List.filterMap_cons, List.filter_cons]
    cases hc : cacheO t
    all_goals cases hf : fetchO t
    all_goals simp_all [List.filterMap_cons]
    all_goals omega

/-- C2: Enrichment is fail-open per item.  On the direct-fetch path with `N`
token-bearing results of which `M` fetches fail, the output has exactly
`N - M` entries and the trailing batch write stages exactly the successful
(token, payload) pairs, in order.  On the cache-checked path, with `M'` the
number of tokens that both miss the cache and fail the upstream fetch, the
output has exactly `N - M'` entries and the batch write stages exactly the
pairs for cache-missing tokens whose fetch succeeded.  (The empty output list
is the `N = M` instance.) -/
theorem enrich_fail_open {Seg Opt : Type}
    (cacheO fetchO : Token → Option (BookingData Seg Opt)) (filtered : List Flight) :
    ((enrich_flights_no_cache_async fetchO filtered).enriched.length =
        (flightTokens filtered).length -
          ((flightTokens filtered).filter fun t => (fetchO t).isNone).length ∧
      (enrich_flights_no_cache_async fetchO filtered).batchWrite =
        (flightTokens filtered).filterMap fun t => (fetchO t).map fun d => (t, d)) ∧
    ((enrich_flights_with_cache_async cacheO fetchO filtered).enriched.length =
        (flightTokens filtered).length -
          ((flightTokens filtered).filter
            fun t => (cacheO t).isNone && (fetchO t).isNone).length ∧
      (enrich_flights_with_cache_async cacheO fetchO filtered).batchWrite =
        ((flightTokens filtered).filter fun t => (cacheO t).isNone).filterMap
          fun t => (fetchO t).map fun d => (t, d)) := by
  refine ⟨⟨?_, ?_⟩, ?_, ?_⟩
  · simp only [enrich_flights_no_cache_async, processFetched_eq]
    exact length_fetch_successes fetchO (flightTokens filtered)
  · simp only [enrich_flights_no_cache_async, processFetched_eq]
  · simp only [enrich_flights_with_cache_async, splitCacheResults_eq, processFetched_eq,
      List.length_append]
    exact length_withcache_successes cacheO fetchO (flightTokens filtered)
  · simp only [enrich_flights_with_cache_async, splitCacheResults_eq, processFetched_eq]

/-! ## `fetch_booking_options_async` and retry (C8)

`fetch_booking_options_async` (utils/get_flights.py lines 181-212) wraps a
single `GoogleSearch(params).get_dict()` call in `try/except` and returns
`None` on exception; it is not decorated with `retry_with_backoff`, which in
the live module decorates only `get_flights` (line 107, with
`max_retries=4, initial_delay=1, max_delay=8`).  The underlying API call is
modelled as an attempt-indexed oracle so that the number of attempts
consumed is observable. -/

def fetch_booking_options_async {Seg Opt : Type}
    (api : Nat → Except Unit (BookingData Seg Opt)) : Option (BookingData Seg Opt) :=
  match api 0 with
  | .ok d => some d
  | .error _ => none

/-- Counterexample to C8: an upstream detail API that fails transiently on its
first attempt and succeeds on the second.  The cache-checked enrichment path
drops the item (empty output, empty batch write) because
`fetch_booking_options_async` performs a single attempt, whereas the retry
wrapper that the claim asserts is in place (the `get_flights` configuration
`(4, 1, 8)`) would have returned the success after the one retry. -/
theorem fetch_booking_retry_counterexample :
    (enrich_flights_with_cache_async
        (fun _ => (none : Option (BookingData Nat Nat)))
        (fun _ => fetch_booking_options_async
          (fun n => if n = 0 then .error () else .ok ⟨[], [5]⟩))
        [⟨some ['t']⟩]).enriched = [] ∧
    (enrich_flights_with_cache_async
        (fun _ => (none : Option (BookingData Nat Nat)))
        (fun _ => fetch_booking_options_async
          (fun n => if n = 0 then .error () else .ok ⟨[], [5]⟩))
        [⟨some ['t']⟩]).batchWrite = [] ∧
    (retry_with_backoff 4 1 8
        (fun n => if n = 0 then .error () else .ok (⟨[], [5]⟩ : BookingData Nat Nat))) =
      (some (.ok ⟨[], [5]⟩), 2, [1]) := by
  refine ⟨rfl, rfl, rfl⟩

/-- C8 (amended): In the cache-checked enrichment path, upstream detail calls
for cache-miss tokens are issued *without* retry: `fetch_booking_options_async`
consults only the first attempt of the underlying API and returns `None` as
soon as that single attempt fails, so a transiently failing detail fetch drops
the item; the doubling-with-cap retry policy (`retry_with_backoff(4, 1, 8)`)
applies only to the primary search call `get_flights`, which does survive a
single transient failure. -/
theorem fetch_booking_no_retry {Seg Opt : Type}
    (api : Nat → Except Unit (BookingData Seg Opt)) (d : BookingData Seg Opt) :
    fetch_booking_options_async api = (api 0).toOption ∧
    (retry_with_backoff 4 1 8
        (fun n => if n = 0 then .error () else .ok d)) = (some (.ok d), 2, [1]) := by
  constructor
  · cases h : api 0 <;> simp [fetch_booking_options_async, h, Except.toOption]
  · rfl

/-! ## Cache-key derivation (utils/mongoDB.py lines 85-107)

`generate_cache_key` computes
`hashlib.sha256(json.dumps(dict(sorted(request_params.items())), sort_keys=True).encode()).hexdigest()`.
JSON values are modelled by the inductive `J`; `dumps` models
`json.dumps(·, sort_keys=True)` with the default separators (`", "` and
`": "`), which sorts keys at *every* object level.  SHA-256 is a fixed pure
function of the serialized string, so equality of derived cache keys is
decided by equality of the canonical serialization; the model's key *is* that
canonical string. -/

inductive J : Type where
  | null : J
  | bool (b : Bool) : J
  | num (n : Int) : J
  | str (s : String) : J
  | arr (l : List J) : J
  | obj (l : List (String × J)) : J

def keyLe (p q : String × String) : Prop := p.1 ≤ q.1

instance : DecidableRel keyLe := fun p q => inferInstanceAs (Decidable (p.1 ≤ q.1))

instance : IsTotal (String × String) keyLe := ⟨fun p q => le_total p.1 q.1⟩

instance : IsTrans (String × String) keyLe := ⟨fun _ _ _ h1 h2 => le_trans h1 h2⟩

def keyLeJ (p q : String × J) : Prop := p.1 ≤ q.1

instance : DecidableRel keyLeJ := fun p q => inferInstanceAs (Decidable (p.1 ≤ q.1))

/-- Key-sorting of already-serialized entries (what `sort_keys=True` does at
one object level). -/
def sortPairs (l : List (String × String)) : List (String × String) :=
  List.insertionSort keyLe l

/-- Model of `sorted(request_params.items())` at the `J` level. -/
def sortPairsJ (l : List (String × J)) : List (String × J) :=
  List.insertionSort keyLeJ l

def renderPair (p : String × String) : String :=
  "\"" ++ p.1 ++ "\"" ++ ": " ++ p.2

def joinS : List String → String
  | [] => ""
  | [s] => s
  | s :: r => s ++ ", " ++ joinS r

mutual

def dumps : J → String
  | .null => "null"
  | .bool true => "true"
  | .bool false => "false"
  | .num n => toString n
  | .str s => "\"" ++ s ++ "\""
  | .arr l => "[" ++ joinS (dumpsList l) ++ "]"
  | .obj l => "\x7b" ++ joinS ((sortPairs (dumpsKV l)).map renderPair) ++ "\x7d"

def dumpsList : List J → List String
  | [] => []
  | a :: r => dumps a :: dumpsList r

def dumpsKV : List (String × J) → List (String × String)
  | [] => []
  | (k, v) :: r => (k, dumps v) :: dumpsKV r

end

/-- Model of `generate_cache_key(request_params)` up to the final SHA-256
hexdigest (a fixed function, preserved under string equality). -/
def generate_cache_key (params : List (String × J)) : String :=
  dumps (.obj (sortPairsJ params))

/-- Two JSON values contain the same key-value pairs regardless of key
insertion order, including inside nested containers: reflexivity, reordering
of an object's entries (objects have pairwise-distinct keys), pointwise
rewriting of one entry of an object or an array, and chaining. -/
inductive JEquiv : J → J → Prop where
  | refl (a : J) : JEquiv a a
  | objPerm {l l2 : List (String × J)} :
      l.Perm l2 → (l.map Prod.fst).Nodup → JEquiv (.obj l) (.obj l2)
  | objCongr (pre post : List (String × J)) (k : String) {v v2 : J} :
      JEquiv v v2 → JEquiv (.obj (pre ++ (k, v) :: post)) (.obj (pre ++ (k, v2) :: post))
  | arrCongr (pre post : List J) {v v2 : J} :
      JEquiv v v2 → JEquiv (.arr (pre ++ v :: post)) (.arr (pre ++ v2 :: post))
  | trans {a b c : J} : JEquiv a b → JEquiv b c → JEquiv a c

theorem dumpsKV_eq_map (l : List (String × J)) :
    dumpsKV l = l.map fun p => (p.1, dumps p.2) := by
  induction l with
  | nil => rfl
  | cons p r ih => cases p; simp [dumpsKV, ih]

theorem dumpsList_append (l1 l2 : List J) :
    dumpsList (l1 ++ l2) = dumpsList l1 ++ dumpsList l2 := by
  induction l1 with
  | nil => rfl
  | cons a r ih => simp [dumpsList, ih]

theorem sortPairs_eq_of_perm_of_nodupKeys {m m2 : List (String × String)}
    (hp : m.Perm m2) (hn : (m.map Prod.fst).Nodup) : sortPairs m = sortPairs m2 := by
  have hperm : (sortPairs m).Perm (sortPairs m2) :=
    (List.perm_insertionSort keyLe m).trans (hp.trans (List.perm_insertionSort keyLe m2).symm)
  have key_lt_of_sorted : ∀ x : List (String × String), x.Perm m →
      (sortPairs x).Pairwise fun p q => p.1 < q.1 := by
    intro x hx
    have hsle : (sortPairs x).Pairwise keyLe := List.sorted_insertionSort keyLe x
    have hnx : ((sortPairs x).map Prod.fst).Nodup := by
      refine ((((List.perm_insertionSort keyLe x).trans hx).map Prod.fst).nodup_iff).2 hn
    have hne : (sortPairs x).Pairwise fun p q => p.1 ≠ q.1 :=
      (List.pairwise_map.1 hnx)
    exact (hsle.and hne).imp fun h => lt_of_le_of_ne h.1 h.2
  haveI : IsAntisymm (String × String) (fun p q => p.1 < q.1) :=
    ⟨fun _ _ h1 h2 => absurd h1 (lt_asymm h2)⟩
  exact List.eq_of_perm_of_sorted hperm
    (key_lt_of_sorted m (List.Perm.refl m)) (key_lt_of_sorted m2 hp.symm)

theorem dumpsKV_sortPairsJ (l : List (String × J)) :
    dumpsKV (sortPairsJ l) = sortPairs (dumpsKV l) := by
  rw [dumpsKV_eq_map, dumpsKV_eq_map]
  exact List.map_insertionSort keyLeJ keyLe (fun p : String × J => (p.1, dumps p.2)) l
    fun a _ b _ => Iff.rfl

theorem generate_cache_key_eq_dumps (l : List (String × J)) :
    generate_cache_key l = dumps (.obj l) := by
  simp only [generate_cache_key, dumps, dumpsKV_sortPairsJ]
  rw [show sortPairs (sortPairs (dumpsKV l)) = sortPairs (dumpsKV l) from
    List.Sorted.insertionSort_eq (List.sorted_insertionSort keyLe (dumpsKV l))]

theorem dumps_equiv {a b : J} (h : JEquiv a b) : dumps a = dumps b := by
  induction h with
  | refl a => rfl
  | @objPerm l l2 hp hn =>
    have h1 : (dumpsKV l).Perm (dumpsKV l2) := by
      rw [dumpsKV_eq_map, dumpsKV_eq_map]
      exact hp.map _
    have h2 : ((dumpsKV l).map Prod.fst).Nodup := by
      rw [dumpsKV_eq_map, List.map_map]
      exact hn
    simp only [dumps]
    rw [sortPairs_eq_of_perm_of_nodupKeys h1 h2]
  | objCongr pre post k hv ih =>
    simp only [dumps, dumpsKV_eq_map, List.map_append, List.map_cons, ih]
  | arrCongr pre post hv ih =>
    simp only [dumps, dumpsList_append, dumpsList, ih]
  | trans h1 h2 ih1 ih2 => exact ih1.trans ih2

/-- C4: Cache-key determinism.  For all request-parameter maps `a`, `b` that
contain the same key-value pairs regardless of key insertion order (including
ordering inside nested maps), the derived cache key of `a` equals the derived
cache key of `b`: the key is a pure function of the parameter set. -/
theorem generate_cache_key_deterministic (a b : List (String × J))
    (h : JEquiv (.obj a) (.obj b)) : generate_cache_key a = generate_cache_key b := by
  rw [generate_cache_key_eq_dumps, generate_cache_key_eq_dumps]
  exact dumps_equiv h

/-- Witness for C4: two concrete parameter maps with the same key-value pairs,
differing in top-level key order and in the entry order of a nested map, get
the same derived cache key. -/
theorem generate_cache_key_deterministic_witness :
    generate_cache_key
        [("b", .str "2"), ("a", .obj [("y", .num 1), ("x", .null)])] =
      generate_cache_key
        [("a", .obj [("x", .null), ("y", .num 1)]), ("b", .str "2")] :=
  generate_cache_key_deterministic
    [("b", .str "2"), ("a", .obj [("y", .num 1), ("x", .null)])]
    [("a", .obj [("x", .null), ("y", .num 1)]), ("b", .str "2")]
    (JEquiv.trans
      (JEquiv.objCongr [("b", .str "2")] [] "a"
        (JEquiv.objPerm (List.Perm.swap ("x", J.null) ("y", J.num 1) [])
          (by simp)))
      (JEquiv.objPerm
        (List.Perm.swap ("a", J.obj [("x", .null), ("y", .num 1)]) ("b", J.str "2") [])
        (by simp)))

/-! ## Discount extraction and combination

Two implementations exist in the repository:

* `utils/rag_platform_combo_retriever.py` (`RagPlatform` below): classifies an
  offer by *extracting* from its lowercased text — percentage pattern
  `(\d+(?:\.\d+)?)\s*%` first, then the flat patterns
  `[₹]\s*(\d{1,3}(?:,\d{3})*)`, `rs\.?\s*(…)`, `inr\s*(…)`,
  `(…)\s*(?:off|cashback|discount)` in order.
* `utils/rag_combo_builder.py` (`RagBuilder` below): classifies by the offer's
  `discount_type` field; its flat pattern is `[â‚¹Rs]\s*(\d+(?:,\d+)?)` — the
  character class is the UTF-8 mojibake of `₹` (the three characters
  `'â' '‚' '¹'`) plus `'R'` and `'s'`, so a real `'₹'` sign does not match it.

Offer text is `List Char`; regex matching is modelled by positional matchers
(the leftmost position wins, as with `re.search`); `\s` is modelled by
`Char.isWhitespace`.  Greedy matching without backtracking is faithful here
because in every pattern a shorter quantifier match leaves a digit or a comma
in a place where the pattern's continuation requires `%`, whitespace or a
keyword, so backtracking can never turn a failure into a success at the same
position.  Money and percentage values are `ℚ`. -/

def digitsToNat (l : List Char) : Nat :=
  l.foldl (fun acc c => acc * 10 + (c.toNat - 48)) 0

/-- Leftmost-position regex search: try the matcher at each position from the
left; the first position where it succeeds wins. -/
def search {α : Type} (m : List Char → Option α) : List Char → Option α
  | [] => none
  | c :: r =>
    match m (c :: r) with
    | some v => some v
    | none => search m r

/-- Matcher for `(\d+(?:\.\d+)?)\s*%` anchored at the current position. -/
def pctAt (l : List Char) : Option ℚ :=
  let ds := l.takeWhile Char.isDigit
  let rest := l.dropWhile Char.isDigit
  if ds = [] then none
  else
    match rest with
    | '.' :: r2 =>
      let fs := r2.takeWhile Char.isDigit
      let r3 := r2.dropWhile Char.isDigit
      if fs = [] then none
      else
        match r3.dropWhile Char.isWhitespace with
        | '%' :: _ => some ((digitsToNat ds : ℚ) + (digitsToNat fs : ℚ) / 10 ^ fs.length)
        | _ => none
    | _ =>
      match rest.dropWhile Char.isWhitespace with
      | '%' :: _ => some ((digitsToNat ds : ℚ))
      | _ => none

/-- Greedy `(?:,\d{3})*`: accumulate groups of exactly `,ddd`. -/
def commaGroups : Nat → List Char → Nat × List Char
  | acc, ',' :: a :: b :: c :: r =>
    if a.isDigit && b.isDigit && c.isDigit then
      commaGroups (acc * 1000 + digitsToNat [a, b, c]) r
    else (acc, ',' :: a :: b :: c :: r)
  | acc, rest => (acc, rest)

/-- Matcher for `\d{1,3}(?:,\d{3})*` anchored at the current position; returns
the numeric value of the captured group (commas removed) and the remainder. -/
def flatNumAt (l : List Char) : Option (Nat × List Char) :=
  let ds := l.takeWhile Char.isDigit
  if ds = [] then none
  else
    let d := ds.take 3
    some (commaGroups (digitsToNat d) (l.drop d.length))

/-- `[₹]\s*(\d{1,3}(?:,\d{3})*)` anchored at the current position. -/
def pat1At : List Char → Option Nat
  | '₹' :: r => (flatNumAt (r.dropWhile Char.isWhitespace)).map Prod.fst
  | _ => none

/-- `rs\.?\s*(\d{1,3}(?:,\d{3})*)` anchored at the current position (the text
is already lowercased). -/
def pat2At : List Char → Option Nat
  | 'r' :: 's' :: r =>
    let r2 := match r with
      | '.' :: t => t
      | _ => r
    (flatNumAt (r2.dropWhile Char.isWhitespace)).map Prod.fst
  | _ => none

/-- `inr\s*(\d{1,3}(?:,\d{3})*)` anchored at the current position. -/
def pat3At : List Char → Option Nat
  | 'i' :: 'n' :: 'r' :: r => (flatNumAt (r.dropWhile Char.isWhitespace)).map Prod.fst
  | _ => none

def isPre : List Char → List Char → Bool
  | [], _ => true
  | _ :: _, [] => false
  | a :: as, b :: bs => a = b && isPre as bs

def hasKWPrefix (l : List Char) : Bool :=
  isPre (("off").toList) l || isPre (("cashback").toList) l || isPre (("discount").toList) l

/-- `(\d{1,3}(?:,\d{3})*)\s*(?:off|cashback|discount)` anchored at the current
position. -/
def pat4At (l : List Char) : Option Nat :=
  (flatNumAt l).bind fun p =>
    if hasKWPrefix (p.2.dropWhile Char.isWhitespace) then some p.1 else none

inductive DType : Type where
  | percentage : DType
  | flat : DType
  deriving DecidableEq, Repr

/-- Offer record: only the fields the combination engine reads; `discount_type`
is absent-able (`offer.get("discount_type", "flat")`). -/
structure Offer where
  title : List Char
  offer : List Char
  discount_type : Option (List Char)
  deriving DecidableEq, Repr

/-- Result of `calculate_combo_price` (both variants); the display-string
breakdown lists (`applied_steps` / `steps`) are not modelled. -/
structure CalcResult where
  original_price : ℚ
  final_price : ℚ
  total_savings : ℚ
  deriving DecidableEq, Repr

namespace RagPlatform

/-- Model of `extract_discount_value` of `rag_platform_combo_retriever.py`:
percentage pattern first on the lowercased text, then the four flat patterns
in order; no match at all means a zero flat discount. -/
def extract_discount_value (offer_text : List Char) : DType × ℚ :=
  if offer_text = [] then (.flat, 0)
  else
    let text := offer_text.map Char.toLower
    match search pctAt text with
    | some v => (.percentage, v)
    | none =>
      match search pat1At text with
      | some n => (.flat, (n : ℚ))
      | none =>
        match search pat2At text with
        | some n => (.flat, (n : ℚ))
        | none =>
          match search pat3At text with
          | some n => (.flat, (n : ℚ))
          | none =>
            match search pat4At text with
            | some n => (.flat, (n : ℚ))
            | none => (.flat, 0)

/-- Model of `calculate_combo_price` of `rag_platform_combo_retriever.py`:
separate offers into percentage and flat by extracted type (keeping input
order), apply positive percentage discounts sequentially to the running
price, then subtract the sum of the positive flat amounts once (guarded by
`total_flat > 0`), clamp at 0, and report savings against the *clamped*
final price. -/
def calculate_combo_price (base_price : ℚ) (offers : List Offer) : CalcResult :=
  let tagged := offers.map fun o => extract_discount_value o.offer
  let pcts := (tagged.filter fun p => decide (p.1 = DType.percentage)).map Prod.snd
  let flats := (tagged.filter fun p => decide (p.1 ≠ DType.percentage)).map Prod.snd
  let afterPct := pcts.foldl (fun cur v => if v ≤ 0 then cur else cur - cur * (v / 100)) base_price
  let total_flat := (flats.filter fun v => decide (0 < v)).sum
  let current := if 0 < total_flat then afterPct - total_flat else afterPct
  { original_price := base_price
    final_price := max 0 current
    total_savings := base_price - max 0 current }

end RagPlatform

namespace RagBuilder

/-- Member test for the builder's flat-pattern character class `[â‚¹Rs]` (the
mojibake of `₹` plus `R` and `s`). -/
def flatClassChar (c : Char) : Bool :=
  c = 'â' || c = '‚' || c = '¹' || c = 'R' || c = 's'

/-- Matcher for `[â‚¹Rs]\s*(\d+(?:,\d+)?)` anchored at the current position;
the captured group has its comma removed before conversion. -/
def bFlatAt : List Char → Option ℚ
  | [] => none
  | c :: r =>
    if flatClassChar c then
      let r2 := r.dropWhile Char.isWhitespace
      let ds := r2.takeWhile Char.isDigit
      if ds = [] then none
      else
        match r2.drop ds.length with
        | ',' :: t =>
          let fs := t.takeWhile Char.isDigit
          if fs = [] then some ((digitsToNat ds : ℚ))
          else some ((digitsToNat ds : ℚ) * 10 ^ fs.length + (digitsToNat fs : ℚ))
        | _ => some ((digitsToNat ds : ℚ))
    else none

/-- Model of `extract_discount_value` of `rag_combo_builder.py`: when asked
for a percentage, try the percentage pattern on the raw text; on failure (or
when asked for a flat amount) fall through to the mojibake flat pattern;
return 0.0 when nothing matches. -/
def extract_discount_value (offer_text : List Char) (discount_type : List Char) : ℚ :=
  match (if discount_type = ("percentage").toList then search pctAt offer_text else none) with
  | some v => v
  | none =>
    match search bFlatAt offer_text with
    | some v => v
    | none => 0

/-- Loop body of the builder's `calculate_combo_price`: an offer whose
`discount_type` field says percentage compounds the running price (when its
extracted value is positive), any other offer accumulates its extracted flat
amount (when positive). -/
def comboStep (acc : ℚ × ℚ) (o : Offer) : ℚ × ℚ :=
  let dt := o.discount_type.getD (("flat").toList)
  if dt = ("percentage").toList then
    let p := extract_discount_value o.offer (("percentage").toList)
    if 0 < p then (acc.1 - acc.1 * (p / 100), acc.2) else acc
  else
    let amt := extract_discount_value o.offer (("flat").toList)
    if 0 < amt then (acc.1, acc.2 + amt) else acc

/-- Model of `calculate_combo_price` of `rag_combo_builder.py`: one pass over
the offers in input order via `comboStep`; the accumulated flat total is
subtracted once at the end; `final_price` is clamped at 0 but `total_savings`
is computed against the *unclamped* price. -/
def calculate_combo_price (base_price : ℚ) (offers : List Offer) : CalcResult :=
  let res := offers.foldl comboStep (base_price, 0)
  let current := res.1 - res.2
  { original_price := base_price
    final_price := max 0 current
    total_savings := base_price - current }

/-- Combo record of `build_offer_combo`; the `reasoning`/`breakdown` display
strings are not modelled. -/
structure Combo where
  ctype : List Char
  offers : List Offer
  original_price : ℚ
  final_price : ℚ
  total_savings : ℚ
  deriving DecidableEq, Repr

/-- Model of `build_offer_combo` of `rag_combo_builder.py`: a
`payment+general` combo from *all* payment plus *all* general offers when both
categories are populated, a `payment+gift` combo likewise, never
`general+gift`; `best_combo` is the first combo of maximal `total_savings`
(Python `max`), or `None` when no combo was built.  Returns
`(combos, best_combo)`. -/
def build_offer_combo (payment_offers general_offers gift_coupons : List Offer)
    (base_price : ℚ) : List Combo × Option Combo :=
  let combos :=
    (if payment_offers ≠ [] ∧ general_offers ≠ [] then
      let co := payment_offers ++ general_offers
      let r := calculate_combo_price base_price co
      [⟨("payment+general").toList, co, r.original_price, r.final_price, r.total_savings⟩]
    else []) ++
    (if payment_offers ≠ [] ∧ gift_coupons ≠ [] then
      let co := payment_offers ++ gift_coupons
      let r := calculate_combo_price base_price co
      [⟨("payment+gift").toList, co, r.original_price, r.final_price, r.total_savings⟩]
    else [])
  match combos with
  | [] => ([], none)
  | c :: rest =>
    (combos, some (rest.foldl (fun best x => if best.total_savings < x.total_savings then x else best) c))

end RagBuilder

theorem pctAt_nonneg {l : List Char} {v : ℚ} (h : pctAt l = some v) : 0 ≤ v := by
  unfold pctAt at h
  dsimp only at h
  repeat' split at h
  all_goals first
    | (obtain rfl := (Option.some.inj h).symm; positivity)
    | simp at h

theorem search_nonneg {m : List Char → Option ℚ}
    (hm : ∀ l v, m l = some v → 0 ≤ v) :
    ∀ {l : List Char} {v : ℚ}, search m l = some v → 0 ≤ v := by
  intro l
  induction l with
  | nil => intro v h; exact absurd h (by simp [search])
  | cons c r ih =>
    intro v h
    unfold search at h
    split at h
    next v2 heq =>
      obtain rfl : v2 = v := Option.some.inj h
      exact hm _ _ heq
    next heq => exact ih h

theorem extract_discount_value_nonneg (t : List Char) :
    0 ≤ (RagPlatform.extract_discount_value t).2 := by
  simp only [RagPlatform.extract_discount_value]
  split_ifs
  · norm_num
  · split
    next v heq => exact search_nonneg (fun _ _ h => pctAt_nonneg h) heq
    next =>
      split
      next => exact Nat.cast_nonneg _
      next =>
        split
        next => exact Nat.cast_nonneg _
        next =>
          split
          next => exact Nat.cast_nonneg _
          next =>
            split
            next => exact Nat.cast_nonneg _
            next => norm_num

theorem foldl_pct_skip (l : List ℚ) (h : ∀ v ∈ l, 0 ≤ v) :
    ∀ c : ℚ, l.foldl (fun cur v => if v ≤ 0 then cur else cur - cur * (v / 100)) c =
      l.foldl (fun cur v => cur - cur * (v / 100)) c := by
  induction l with
  | nil => intro c; rfl
  | cons v r ih =>
    intro c
    have hv := h v (List.mem_cons_self v r)
    have hr := fun x hx => h x (List.mem_cons_of_mem v hx)
    simp only [List.foldl_cons]
    rcases le_or_lt v 0 with h0 | h0
    · have hv0 : v = 0 := le_antisymm h0 hv
      rw [if_pos h0, hv0]
      rw [ih hr]
      norm_num
    · rw [if_neg (not_le.mpr h0), ih hr]

theorem sum_filter_pos (l : List ℚ) (h : ∀ v ∈ l, 0 ≤ v) :
    (l.filter fun v => decide (0 < v)).sum = l.sum := by
  induction l with
  | nil => rfl
  | cons v r ih =>
    have hv := h v (List.mem_cons_self v r)
    have hr := fun x hx => h x (List.mem_cons_of_mem v hx)
    simp only [List.filter_cons, List.sum_cons]
    rcases lt_or_le 0 v with h0 | h0
    · simp [h0, ih hr]
    · have hv0 : v = 0 := le_antisymm h0 hv
      simp [hv0, ih hr, not_lt.mpr h0]

/-- C6: Discount application order of `calculate_combo_price`
(rag_platform_combo_retriever.py): for every base price and offer list, the
final price equals the base price run through all percentage-classified
extracted discounts first, in input order, each taken against the running
price, minus the plain sum of all flat-classified extracted amounts, clamped
at 0 (so the insertion-order skipping of non-positive values in the code is
immaterial); total savings is base minus the clamped price.  In particular
`applyCombo(1000, [20% off, 10% off, flat ₹50 off])` gives a final price of
670 and savings of 330 — in both implementations (for the builder, with the
matching `discount_type` fields and an `Rs`-spelt flat offer its mojibake
pattern can see). -/
theorem calculate_combo_price_sequencing (base : ℚ) (offers : List Offer) :
    (RagPlatform.calculate_combo_price base offers =
      { original_price := base
        final_price :=
          max 0
            (((((offers.map fun o => RagPlatform.extract_discount_value o.offer).filter
                  fun p => decide (p.1 = DType.percentage)).map Prod.snd).foldl
                (fun cur v => cur - cur * (v / 100)) base) -
              ((((offers.map fun o => RagPlatform.extract_discount_value o.offer).filter
                  fun p => decide (p.1 ≠ DType.percentage)).map Prod.snd).sum))
        total_savings := base -
          max 0
            (((((offers.map fun o => RagPlatform.extract_discount_value o.offer).filter
                  fun p => decide (p.1 = DType.percentage)).map Prod.snd).foldl
                (fun cur v => cur - cur * (v / 100)) base) -
              ((((offers.map fun o => RagPlatform.extract_discount_value o.offer).filter
                  fun p => decide (p.1 ≠ DType.percentage)).map Prod.snd).sum)) }) ∧
    RagPlatform.calculate_combo_price 1000
        [⟨("A").toList, ("20% off").toList, none⟩,
          ⟨("B").toList, ("10% off").toList, none⟩,
          ⟨("C").toList, ("Flat ₹50 off").toList, none⟩] =
      { original_price := 1000, final_price := 670, total_savings := 330 } ∧
    RagBuilder.calculate_combo_price 1000
        [⟨("A").toList, ("20% off").toList, some (("percentage").toList)⟩,
          ⟨("B").toList, ("10% off").toList, some (("percentage").toList)⟩,
          ⟨("C").toList, ("Rs 50 off").toList, some (("flat").toList)⟩] =
      { original_price := 1000, final_price := 670, total_savings := 330 } := by
  refine ⟨?_, ?_, ?_⟩
  case refine_2 =>
    have e1 : RagPlatform.extract_discount_value (("20% off").toList) =
        (DType.percentage, ((20 : Nat) : ℚ)) := rfl
    have e2 : RagPlatform.extract_discount_value (("10% off").toList) =
        (DType.percentage, ((10 : Nat) : ℚ)) := rfl
    have e3 : RagPlatform.extract_discount_value (("Flat ₹50 off").toList) =
        (DType.flat, ((50 : Nat) : ℚ)) := rfl
    simp only [RagPlatform.calculate_combo_price, List.map_cons, List.map_nil, e1, e2, e3,
      List.filter_cons, List.filter_nil, List.foldl_cons, List.foldl_nil, List.sum_cons,
      List.sum_nil]
    norm_num [show (DType.flat = DType.percentage) = False from eq_false (by decide),
      show (DType.percentage = DType.percentage) = True from eq_true rfl,
      List.filter_cons, List.filter_nil, List.map_cons, List.map_nil, List.foldl_cons,
      List.foldl_nil, List.sum_cons, List.sum_nil]
  case refine_3 =>
    have e1 : RagBuilder.extract_discount_value (("20% off").toList) (("percentage").toList) =
        ((20 : Nat) : ℚ) := rfl
    have e2 : RagBuilder.extract_discount_value (("10% off").toList) (("percentage").toList) =
        ((10 : Nat) : ℚ) := rfl
    have e3 : RagBuilder.extract_discount_value (("Rs 50 off").toList) (("flat").toList) =
        ((50 : Nat) : ℚ) := rfl
    simp only [RagBuilder.calculate_combo_price, RagBuilder.comboStep, List.foldl_cons, List.foldl_nil,
      Option.getD_some,
      show ((("flat").toList : List Char) = ("percentage").toList) = False from
        eq_false (by decide),
      show ((("percentage").toList : List Char) = ("percentage").toList) = True from
        eq_true rfl,
      if_true, if_false, e1, e2, e3]
    norm_num
  unfold RagPlatform.calculate_combo_price
  dsimp only
  have hnn : ∀ p ∈ offers.map fun o => RagPlatform.extract_discount_value o.offer, 0 ≤ p.2 := by
    intro p hp
    obtain ⟨o, _, rfl⟩ := List.mem_map.1 hp
    exact extract_discount_value_nonneg o.offer
  have hpct : ∀ v ∈ ((offers.map fun o => RagPlatform.extract_discount_value o.offer).filter
      fun p => decide (p.1 = DType.percentage)).map Prod.snd, 0 ≤ v := by
    intro v hv
    obtain ⟨p, hp, rfl⟩ := List.mem_map.1 hv
    exact hnn p (List.mem_of_mem_filter hp)
  have hflat : ∀ v ∈ ((offers.map fun o => RagPlatform.extract_discount_value o.offer).filter
      fun p => decide (p.1 ≠ DType.percentage)).map Prod.snd, 0 ≤ v := by
    intro v hv
    obtain ⟨p, hp, rfl⟩ := List.mem_map.1 hv
    exact hnn p (List.mem_of_mem_filter hp)
  rw [foldl_pct_skip _ hpct, sum_filter_pos _ hflat]
  have hsum : 0 ≤ (((offers.map fun o => RagPlatform.extract_discount_value o.offer).filter
      fun p => decide (p.1 ≠ DType.percentage)).map Prod.snd).sum :=
    List.sum_nonneg hflat
  rcases lt_or_le 0 (((offers.map fun o => RagPlatform.extract_discount_value o.offer).filter
      fun p => decide (p.1 ≠ DType.percentage)).map Prod.snd).sum with hpos | hle
  · rw [if_pos hpos]
  · have h0 : (((offers.map fun o => RagPlatform.extract_discount_value o.offer).filter
        fun p => decide (p.1 ≠ DType.percentage)).map Prod.snd).sum = 0 :=
      le_antisymm hle hsum
    rw [if_neg (not_lt.mpr hle), h0, sub_zero]

/-- Counterexample to C7: with two payment offers (10% and 5%) and one general
offer (flat 100), `build_offer_combo` builds the payment+general combo from
*all three* offers (savings 245 on a base of 1000), not from the single
highest-value offer of each category, which would give savings 200. -/
theorem build_offer_combo_counterexample :
    ((RagBuilder.build_offer_combo
        [⟨("P1").toList, ("10% off").toList, some (("percentage").toList)⟩,
          ⟨("P2").toList, ("5% off").toList, some (("percentage").toList)⟩]
        [⟨("G1").toList, ("Rs 100 off").toList, some (("flat").toList)⟩] [] 1000).2).map
        (fun c => (c.offers.length, c.total_savings)) = some (3, (245 : ℚ)) ∧
    (RagBuilder.calculate_combo_price 1000
        [⟨("P1").toList, ("10% off").toList, some (("percentage").toList)⟩,
          ⟨("G1").toList, ("Rs 100 off").toList, some (("flat").toList)⟩]).total_savings =
      (200 : ℚ) ∧
    ((245 : ℚ)) ≠ 200 := by
  have e10 : RagBuilder.extract_discount_value (("10% off").toList) (("percentage").toList) =
      ((10 : Nat) : ℚ) := rfl
  have e5 : RagBuilder.extract_discount_value (("5% off").toList) (("percentage").toList) =
      ((5 : Nat) : ℚ) := rfl
  have e100 : RagBuilder.extract_discount_value (("Rs 100 off").toList) (("flat").toList) =
      ((100 : Nat) : ℚ) := rfl
  have hfalse : ((("flat").toList : List Char) = ("percentage").toList) = False :=
    eq_false (by decide)
  have htrue : ((("percentage").toList : List Char) = ("percentage").toList) = True :=
    eq_true rfl
  have hc3 : RagBuilder.calculate_combo_price 1000
      [⟨("P1").toList, ("10% off").toList, some (("percentage").toList)⟩,
        ⟨("P2").toList, ("5% off").toList, some (("percentage").toList)⟩,
        ⟨("G1").toList, ("Rs 100 off").toList, some (("flat").toList)⟩] =
      { original_price := 1000, final_price := 755, total_savings := 245 } := by
    simp only [RagBuilder.calculate_combo_price, RagBuilder.comboStep, List.foldl_cons, List.foldl_nil,
      Option.getD_some, hfalse, htrue, if_true, if_false, e10, e5, e100]
    norm_num
  have hc2 : RagBuilder.calculate_combo_price 1000
      [⟨("P1").toList, ("10% off").toList, some (("percentage").toList)⟩,
        ⟨("G1").toList, ("Rs 100 off").toList, some (("flat").toList)⟩] =
      { original_price := 1000, final_price := 800, total_savings := 200 } := by
    simp only [RagBuilder.calculate_combo_price, RagBuilder.comboStep, List.foldl_cons, List.foldl_nil,
      Option.getD_some, hfalse, htrue, if_true, if_false, e10, e100]
    norm_num
  refine ⟨?_, by rw [hc2], by norm_num⟩
  simp only [RagBuilder.build_offer_combo]
  rw [if_pos ⟨List.cons_ne_nil _ _, List.cons_ne_nil _ _⟩,
    if_neg (by simp)]
  simp only [List.append_nil, List.cons_append, List.nil_append, hc3, List.foldl_nil,
    List.length_cons, List.length_nil]
  rfl


theorem bestFold_mem_max :
    ∀ (l : List RagBuilder.Combo) (c : RagBuilder.Combo),
      (l.foldl (fun best x => if best.total_savings < x.total_savings then x else best) c) ∈
          c :: l ∧
        ∀ x ∈ c :: l,
          x.total_savings ≤
            (l.foldl (fun best x => if best.total_savings < x.total_savings then x else best)
              c).total_savings := by
  intro l
  induction l with
  | nil =>
    intro c
    refine ⟨by simp, ?_⟩
    intro x hx
    simp only [List.mem_singleton] at hx
    subst hx
    exact le_refl _
  | cons d r ih =>
    intro c
    simp only [List.foldl_cons]
    obtain ⟨hmem, hmax⟩ := ih (if c.total_savings < d.total_savings then d else c)
    have hsub : (if c.total_savings < d.total_savings then d else c) ∈ [c, d] := by
      split
      · simp
      · simp
    constructor
    · rcases List.mem_cons.1 hmem with h | h
      · rw [h]
        rcases List.mem_cons.1 hsub with h2 | h2
        · rw [h2]; exact List.mem_cons_self _ _
        · simp only [List.mem_singleton] at h2
          rw [h2]
          exact List.mem_cons_of_mem _ (List.mem_cons_self _ _)
      · exact List.mem_cons_of_mem _ (List.mem_cons_of_mem _ h)
    · intro x hx
      rcases List.mem_cons.1 hx with h | h
      · subst h
        refine le_trans ?_ (hmax _ (List.mem_cons_self _ _))
        split
        next hlt => exact le_of_lt hlt
        next => exact le_refl _
      · rcases List.mem_cons.1 h with h2 | h2
        · subst h2
          refine le_trans ?_ (hmax _ (List.mem_cons_self _ _))
          split
          next => exact le_refl _
          next hlt => exact le_of_not_lt hlt
        · exact hmax x (List.mem_cons_of_mem _ h2)

/-- C7 (amended): `build_offer_combo` builds a candidate combo only for the
category pairings payment+general and payment+gift (never general+gift), each
combo from *all* offers of its two categories concatenated (payment first); it
returns `None` exactly when no allowed pairing has both of its categories
populated — in particular when general and gift offers exist but no payment
offers do — and otherwise returns a combo of maximal `total_savings` among
the built candidates. -/
theorem build_offer_combo_pairings (payment general gift : List Offer) (base : ℚ) :
    ((RagBuilder.build_offer_combo payment general gift base).2 = none ↔
      payment = [] ∨ (general = [] ∧ gift = [])) ∧
    (∀ c ∈ (RagBuilder.build_offer_combo payment general gift base).1,
      (c.ctype = ("payment+general").toList ∧ c.offers = payment ++ general ∧
        payment ≠ [] ∧ general ≠ []) ∨
      (c.ctype = ("payment+gift").toList ∧ c.offers = payment ++ gift ∧
        payment ≠ [] ∧ gift ≠ [])) ∧
    (∀ b, (RagBuilder.build_offer_combo payment general gift base).2 = some b →
      b ∈ (RagBuilder.build_offer_combo payment general gift base).1 ∧
      ∀ c ∈ (RagBuilder.build_offer_combo payment general gift base).1,
        c.total_savings ≤ b.total_savings) := by
  by_cases h1 : payment ≠ [] ∧ general ≠ []
  · by_cases h2 : payment ≠ [] ∧ gift ≠ []
    · simp only [RagBuilder.build_offer_combo, if_pos h1, if_pos h2, List.cons_append,
        List.nil_append]
      refine ⟨by simp [h1.1, h1.2], ?_, ?_⟩
      · intro c hc
        rcases List.mem_cons.1 hc with h | h
        · exact Or.inl ⟨by rw [h], by rw [h], h1.1, h1.2⟩
        · simp only [List.mem_singleton] at h
          exact Or.inr ⟨by rw [h], by rw [h], h2.1, h2.2⟩
      · intro b hb
        obtain rfl := (Option.some.inj hb).symm
        exact bestFold_mem_max _ _
    · simp only [RagBuilder.build_offer_combo, if_pos h1, if_neg h2, List.append_nil]
      refine ⟨by simp [h1.1, h1.2], ?_, ?_⟩
      · intro c hc
        simp only [List.mem_singleton] at hc
        exact Or.inl ⟨by rw [hc], by rw [hc], h1.1, h1.2⟩
      · intro b hb
        obtain rfl := (Option.some.inj hb).symm
        exact bestFold_mem_max [] _
  · by_cases h2 : payment ≠ [] ∧ gift ≠ []
    · simp only [RagBuilder.build_offer_combo, if_pos h2, if_neg h1, List.nil_append]
      refine ⟨by simp [h2.1, h2.2], ?_, ?_⟩
      · intro c hc
        simp only [List.mem_singleton] at hc
        exact Or.inr ⟨by rw [hc], by rw [hc], h2.1, h2.2⟩
      · intro b hb
        obtain rfl := (Option.some.inj hb).symm
        exact bestFold_mem_max [] _
    · simp only [RagBuilder.build_offer_combo, if_neg h1, if_neg h2, List.nil_append]
      refine ⟨?_, by simp, by simp⟩
      push_neg at h1 h2
      constructor
      · intro _
        by_cases hp : payment = []
        · exact Or.inl hp
        · exact Or.inr ⟨h1 hp, h2 hp⟩
      · intro _
        trivial


/-- Witness for C7 (amended): populated general and gift categories without
payment offers yield no combo. -/
theorem build_offer_combo_pairings_witness :
    (RagBuilder.build_offer_combo []
        [⟨("G1").toList, ("10% off").toList, some (("percentage").toList)⟩]
        [⟨("GC1").toList, ("Rs 100 off").toList, some (("flat").toList)⟩] 1000).2 = none :=
  (build_offer_combo_pairings []
    [⟨("G1").toList, ("10% off").toList, some (("percentage").toList)⟩]
    [⟨("GC1").toList, ("Rs 100 off").toList, some (("flat").toList)⟩] 1000).1.mpr (Or.inl rfl)

/-- The `discount_type` field of an offer agrees with the classification that
the retriever extracts from its text, and the two extractors agree on the
magnitude. -/
def offersAligned (o : Offer) : Prop :=
  (o.discount_type.getD (("flat").toList) = ("percentage").toList ∧
    (RagPlatform.extract_discount_value o.offer).1 = DType.percentage ∧
    RagBuilder.extract_discount_value o.offer (("percentage").toList) =
      (RagPlatform.extract_discount_value o.offer).2) ∨
  (o.discount_type.getD (("flat").toList) ≠ ("percentage").toList ∧
    (RagPlatform.extract_discount_value o.offer).1 = DType.flat ∧
    RagBuilder.extract_discount_value o.offer (("flat").toList) =
      (RagPlatform.extract_discount_value o.offer).2)

instance (o : Offer) : Decidable (offersAligned o) := by
  unfold offersAligned
  infer_instance

theorem builder_foldl_char :
    ∀ (offers : List Offer), (∀ o ∈ offers, offersAligned o) →
      ∀ c f : ℚ,
        offers.foldl RagBuilder.comboStep (c, f) =
          ((((offers.map fun o => RagPlatform.extract_discount_value o.offer).filter
                fun p => decide (p.1 = DType.percentage)).map Prod.snd).foldl
              (fun cur v => if v ≤ 0 then cur else cur - cur * (v / 100)) c,
            f + (((((offers.map fun o => RagPlatform.extract_discount_value o.offer).filter
                fun p => decide (p.1 ≠ DType.percentage)).map Prod.snd).filter
                  fun v => decide (0 < v)).sum)) := by
  intro offers
  induction offers with
  | nil => intro _ c f; simp
  | cons o rest ih =>
    intro ha c f
    have ho := ha o (List.mem_cons_self o rest)
    have hrest := fun x hx => ha x (List.mem_cons_of_mem o hx)
    simp only [List.foldl_cons, List.map_cons, List.filter_cons]
    rcases ho with ⟨hdt, htype, hval⟩ | ⟨hdt, htype, hval⟩
    · have h1 : (DType.percentage ≠ DType.percentage) = False := by simp
      simp only [RagBuilder.comboStep, hdt, hval, htype, decide_eq_true_eq, if_pos rfl,
        h1, if_true, if_false, List.map_cons, List.foldl_cons, List.filter_cons]
      rcases lt_or_le 0 (RagPlatform.extract_discount_value o.offer).2 with hp | hp
      · rw [if_pos hp, if_neg (not_le.mpr hp), ih hrest]
      · rw [if_neg (not_lt.mpr hp), if_pos hp, ih hrest]
    · have h1 : (DType.flat = DType.percentage) = False := eq_false (by decide)
      have h2 : (DType.flat ≠ DType.percentage) = True := eq_true (by decide)
      simp only [RagBuilder.comboStep, if_neg hdt, hval, htype, decide_eq_true_eq,
        h1, h2, if_true, if_false, List.map_cons, List.filter_cons]
      rcases lt_or_le 0 (RagPlatform.extract_discount_value o.offer).2 with hp | hp
      · rw [if_pos hp, if_pos hp, List.sum_cons, ih hrest]
        refine Prod.ext rfl ?_
        dsimp only
        ring
      · rw [if_neg (not_lt.mpr hp), if_neg (not_lt.mpr hp), ih hrest]


/-- C10 (amended): The retriever implementation of `calculate_combo_price`
always satisfies `total_savings = original_price - final_price`; and whenever
every offer's `discount_type` field agrees with the retriever's text-extracted
classification (with both extractors agreeing on the magnitude) *and* the
combined discounts do not exceed the base price (no clamping), the two
implementations return identical results.  They disagree in general: on the
clamped case the builder reports savings against the unclamped price, and the
two discount extractors disagree on texts such as `"₹50 off"` (mojibake
character class) or a `discount_type` field contradicting the text. -/
theorem calculate_combo_price_equivalence (base : ℚ) (offers : List Offer) :
    ((RagPlatform.calculate_combo_price base offers).total_savings =
      (RagPlatform.calculate_combo_price base offers).original_price -
        (RagPlatform.calculate_combo_price base offers).final_price) ∧
    ((∀ o ∈ offers, offersAligned o) →
      (RagBuilder.calculate_combo_price base offers).total_savings ≤ base →
      RagBuilder.calculate_combo_price base offers =
        RagPlatform.calculate_combo_price base offers) := by
  constructor
  · rfl
  · intro ha hsav
    have hfold := builder_foldl_char offers ha base 0
    have hsum_nonneg : (0 : ℚ) ≤
        (((((offers.map fun o => RagPlatform.extract_discount_value o.offer).filter
            fun p => decide (p.1 ≠ DType.percentage)).map Prod.snd).filter
              fun v => decide (0 < v)).sum) := by
      refine List.sum_nonneg ?_
      intro v hv
      have := List.of_mem_filter hv
      simp only [decide_eq_true_eq] at this
      exact le_of_lt this
    unfold RagBuilder.calculate_combo_price RagPlatform.calculate_combo_price
    dsimp only
    rw [hfold]
    dsimp only
    rw [zero_add]
    set A := (((offers.map fun o => RagPlatform.extract_discount_value o.offer).filter
        fun p => decide (p.1 = DType.percentage)).map Prod.snd).foldl
        (fun cur v => if v ≤ 0 then cur else cur - cur * (v / 100)) base with hA
    set F := (((((offers.map fun o => RagPlatform.extract_discount_value o.offer).filter
        fun p => decide (p.1 ≠ DType.percentage)).map Prod.snd).filter
          fun v => decide (0 < v)).sum) with hF
    have hcur : (if 0 < F then A - F else A) = A - F := by
      rcases lt_or_le 0 F with h | h
      · rw [if_pos h]
      · rw [if_neg (not_lt.mpr h), le_antisymm h hsum_nonneg]
        rw [sub_zero]
    rw [hcur]
    have hcur_nonneg : 0 ≤ A - F := by
      have hs : (RagBuilder.calculate_combo_price base offers).total_savings =
          base - (A - F) := by
        unfold RagBuilder.calculate_combo_price
        dsimp only
        rw [hfold]
        dsimp only
        rw [zero_add]
      rw [hs] at hsav
      linarith
    rw [max_eq_right hcur_nonneg]

/-- Counterexample to C10: for the single flat offer `"Rs 200 off"` on a base
price of 100, the builder returns savings 200 while the retriever returns
savings 100, and the builder violates
`total_savings = original_price - final_price` (200 ≠ 100 - 0). -/
theorem combo_equivalence_counterexample :
    RagBuilder.calculate_combo_price 100
        [⟨("O").toList, ("Rs 200 off").toList, some (("flat").toList)⟩] =
      { original_price := 100, final_price := 0, total_savings := 200 } ∧
    RagPlatform.calculate_combo_price 100
        [⟨("O").toList, ("Rs 200 off").toList, some (("flat").toList)⟩] =
      { original_price := 100, final_price := 0, total_savings := 100 } ∧
    ((200 : ℚ) ≠ 100) ∧ ((200 : ℚ) ≠ 100 - 0) := by
  have eb : RagBuilder.extract_discount_value (("Rs 200 off").toList) (("flat").toList) =
      ((200 : Nat) : ℚ) := rfl
  have ep : RagPlatform.extract_discount_value (("Rs 200 off").toList) =
      (DType.flat, ((200 : Nat) : ℚ)) := rfl
  refine ⟨?_, ?_, by norm_num, by norm_num⟩
  · simp only [RagBuilder.calculate_combo_price, RagBuilder.comboStep, List.foldl_cons,
      List.foldl_nil, Option.getD_some,
      show ((("flat").toList : List Char) = ("percentage").toList) = False from
        eq_false (by decide),
      if_false, eb]
    norm_num
  · simp only [RagPlatform.calculate_combo_price, List.map_cons, List.map_nil, ep,
      List.filter_cons, List.filter_nil, List.foldl_cons, List.foldl_nil, List.sum_cons,
      List.sum_nil]
    norm_num [show (DType.flat = DType.percentage) = False from eq_false (by decide),
      List.filter_cons, List.filter_nil, List.map_cons, List.map_nil, List.foldl_cons,
      List.foldl_nil, List.sum_cons, List.sum_nil]

/-- Witness for C10 (amended): on a base of 1000 with an aligned 20% offer and
an aligned flat `Rs 500` offer (no clamping), the two implementations return
the same result. -/
theorem calculate_combo_price_equivalence_witness :
    RagBuilder.calculate_combo_price 1000
        [⟨("A").toList, ("20% off").toList, some (("percentage").toList)⟩,
          ⟨("B").toList, ("Rs 500 off").toList, some (("flat").toList)⟩] =
      RagPlatform.calculate_combo_price 1000
        [⟨("A").toList, ("20% off").toList, some (("percentage").toList)⟩,
          ⟨("B").toList, ("Rs 500 off").toList, some (("flat").toList)⟩] := by
  refine (calculate_combo_price_equivalence 1000
    [⟨("A").toList, ("20% off").toList, some (("percentage").toList)⟩,
      ⟨("B").toList, ("Rs 500 off").toList, some (("flat").toList)⟩]).2 (by decide) ?_
  have e1 : RagBuilder.extract_discount_value (("20% off").toList) (("percentage").toList) =
      ((20 : Nat) : ℚ) := rfl
  have e2 : RagBuilder.extract_discount_value (("Rs 500 off").toList) (("flat").toList) =
      ((500 : Nat) : ℚ) := rfl
  have hc : RagBuilder.calculate_combo_price 1000
      [⟨("A").toList, ("20% off").toList, some (("percentage").toList)⟩,
        ⟨("B").toList, ("Rs 500 off").toList, some (("flat").toList)⟩] =
      { original_price := 1000, final_price := 300, total_savings := 700 } := by
    simp only [RagBuilder.calculate_combo_price, RagBuilder.comboStep, List.foldl_cons,
      List.foldl_nil, Option.getD_some,
      show ((("flat").toList : List Char) = ("percentage").toList) = False from
        eq_false (by decide),
      show ((("percentage").toList : List Char) = ("percentage").toList) = True from
        eq_true rfl,
      if_true, if_false, e1, e2]
    norm_num
  rw [hc]
  norm_num


/-! ## Query normalization (utils/get_flights.py lines 16-61)

`normalize_price` strips non-digits (`re.sub(r"[^\\d]", "", str(value))`) and
returns the digit string when nonempty; `map_airlines` lowercases and strips
the input, rejects it when any "any airline" token occurs as a substring,
splits on commas, strips each component, and maps each component to an IATA
code (short alphabetic components are uppercased, known airline names are
looked up, otherwise the first space-insensitive substring match of a known
name wins); the final result is `",".join(set(codes))`.

Whitespace is modelled by `Char.isWhitespace`.  CPython set iteration order is
an implementation detail that is a fixed function of the element set within a
process; the model renders `set(codes)` canonically as sorted deduplication
(`sortCodes`), which has exactly the property relied on here: it depends only
on which codes are present. -/

def lowerL (l : List Char) : List Char := l.map Char.toLower

/-- Executable substring (contiguous) check, the model of Python `in`. -/
def isInfixB (t : List Char) : List Char → Bool
  | [] => t.isEmpty
  | c :: l => t.isPrefixOf (c :: l) || isInfixB t l

/-- Removal of trailing whitespace, recursively. -/
def trimR : List Char → List Char
  | [] => []
  | c :: t =>
    match trimR t with
    | [] => if c.isWhitespace then [] else [c]
    | r => c :: r

/-- Model of Python `str.strip()`: remove leading and trailing whitespace. -/
def trim (l : List Char) : List Char := trimR (l.dropWhile Char.isWhitespace)

/-- Split on commas; `"".split(",") == [""]`. -/
def splitC : List Char → List (List Char)
  | [] => [[]]
  | c :: t =>
    if c = ',' then [] :: splitC t
    else
      match splitC t with
      | [] => [[c]]
      | h :: t2 => (c :: h) :: t2

/-- Comma-join, the model of `",".join(...)`. -/
def joinC : List (List Char) → List Char
  | [] => []
  | [s] => s
  | s :: t => s ++ ',' :: joinC t

def ANY_TOKENS : List (List Char) :=
  [("any").toList, ("any airline").toList, ("no preference").toList,
    ("no airline").toList, ("all airlines").toList]

def AIRLINE_MAP : List (List Char × List Char) :=
  [(("air india").toList, ("AI").toList),
    (("indigo").toList, ("6E").toList),
    (("spicejet").toList, ("SG").toList),
    (("goair").toList, ("G8").toList),
    (("vistara").toList, ("UK").toList),
    (("air asia").toList, ("I5").toList),
    (("akasa").toList, ("QP").toList),
    (("air india express").toList, ("IX").toList),
    (("alliance air").toList, ("9I").toList),
    (("star air").toList, ("S5").toList),
    (("flybig").toList, ("S9").toList),
    (("indiaone air").toList, ("I7").toList),
    (("fly91").toList, ("IC").toList)]

/-- Model of `normalize_price`: falsy input gives `None`; otherwise keep the
digits and return them when they form a nonempty digit string. -/
def normalize_price : Option (List Char) → Option (List Char)
  | none => none
  | some v =>
    if v = [] then none
    else
      let cleaned := v.filter Char.isDigit
      if cleaned ≠ [] ∧ cleaned.all Char.isDigit then some cleaned else none

/-- Executable lexicographic order on `List Char`, used to render the set of
codes canonically. -/
def clLeB : List Char → List Char → Bool
  | [], _ => true
  | _ :: _, [] => false
  | a :: as, b :: bs => if a < b then true else if a = b then clLeB as bs else false

def clLe (a b : List Char) : Prop := clLeB a b = true

instance : DecidableRel clLe := fun a b => inferInstanceAs (Decidable (clLeB a b = true))

/-- Canonical rendering of `set(codes)`: deduplicate, then sort. -/
def sortCodes (l : List (List Char)) : List (List Char) :=
  List.insertionSort clLe l.dedup

/-- One loop iteration of `map_airlines`: the code contributed by one cleaned
airline component, if any. -/
def codeOf (a : List Char) : Option (List Char) :=
  if a.length ≤ 3 ∧ a ≠ [] ∧ a.all Char.isAlpha then some (a.map Char.toUpper)
  else if (AIRLINE_MAP.lookup a).isSome then AIRLINE_MAP.lookup a
  else
    (AIRLINE_MAP.find? fun kv =>
      isInfixB (kv.1.filter fun c => c ≠ ' ') (a.filter fun c => c ≠ ' ')).map Prod.snd

/-- Model of `map_airlines`. -/
def map_airlines : Option (List Char) → Option (List Char)
  | none => none
  | some s =>
    if s = [] then none
    else
      let raw := trim (lowerL s)
      if ANY_TOKENS.any (fun tok => isInfixB tok raw) then none
      else
        let airlines := (splitC raw).filterMap fun a =>
          let a2 := lowerL (trim a)
          if a2 = [] then none else some a2
        let codes := airlines.filterMap codeOf
        if codes = [] then none else some (joinC (sortCodes codes))

/-- Counterexample to C9: `map_airlines` is not idempotent.  `"indigo"`
normalizes to the IATA code `"6E"`, but normalizing `"6E"` again yields `None`
(the code is not purely alphabetic, is no known airline name, and no airline
name is a substring of it), so applying the mapping twice differs from
applying it once. -/
theorem map_airlines_not_idempotent :
    map_airlines (some (("indigo").toList)) = some (("6E").toList) ∧
    map_airlines (map_airlines (some (("indigo").toList))) = none ∧
    (none : Option (List Char)) ≠ some (("6E").toList) := by
  refine ⟨by decide, by decide, by decide⟩


/-! ### Character arithmetic -/

theorem char_toNat_ofNat (n : Nat) (h : n.isValidChar) : (Char.ofNat n).toNat = n := by
  unfold Char.ofNat
  rw [dif_pos h]
  simp [Char.ofNatAux, Char.toNat, UInt32.toNat]

theorem isLower_iff {c : Char} : c.isLower = true ↔ 97 ≤ c.toNat ∧ c.toNat ≤ 122 := by
  simp only [Char.isLower, Bool.and_eq_true, decide_eq_true_eq, ge_iff_le]
  rw [UInt32.le_def, UInt32.le_def, BitVec.le_def, BitVec.le_def]
  exact Iff.rfl

theorem isUpper_iff {c : Char} : c.isUpper = true ↔ 65 ≤ c.toNat ∧ c.toNat ≤ 90 := by
  simp only [Char.isUpper, Bool.and_eq_true, decide_eq_true_eq, ge_iff_le]
  rw [UInt32.le_def, UInt32.le_def, BitVec.le_def, BitVec.le_def]
  exact Iff.rfl

theorem toLower_toNat (c : Char) :
    (Char.toLower c).toNat = if 65 ≤ c.toNat ∧ c.toNat ≤ 90 then c.toNat + 32 else c.toNat := by
  unfold Char.toLower
  split
  case isTrue h => rw [if_pos h]; exact char_toNat_ofNat _ (Or.inl (by omega))
  case isFalse h => rw [if_neg h]

theorem toUpper_toNat (c : Char) :
    (Char.toUpper c).toNat = if 97 ≤ c.toNat ∧ c.toNat ≤ 122 then c.toNat - 32 else c.toNat := by
  unfold Char.toUpper
  split
  case isTrue h => rw [if_pos h]; exact char_toNat_ofNat _ (Or.inl (by omega))
  case isFalse h => rw [if_neg h]

theorem char_eq_iff_toNat {a b : Char} : a = b ↔ a.toNat = b.toNat :=
  ⟨fun h => h ▸ rfl, fun h => Char.ofNat_toNat a ▸ Char.ofNat_toNat b ▸ congrArg Char.ofNat h⟩

theorem toLower_toUpper_of_isLower {c : Char} (h : c.isLower = true) : c.toUpper.toLower = c := by
  have hv := isLower_iff.mp h
  rw [char_eq_iff_toNat, toLower_toNat, toUpper_toNat, if_pos hv]
  rw [if_pos (by omega)]
  omega

theorem toUpper_toLower_of_isUpper {c : Char} (h : c.isUpper = true) : c.toLower.toUpper = c := by
  have hv := isUpper_iff.mp h
  rw [char_eq_iff_toNat, toUpper_toNat, toLower_toNat, if_pos hv]
  rw [if_pos (by omega)]
  omega

theorem toLower_not_isUpper (c : Char) : (Char.toLower c).isUpper = false := by
  rw [Bool.eq_false_iff]
  intro h
  have hv := isUpper_iff.mp h
  rw [toLower_toNat] at hv
  split at hv <;> omega

theorem toLower_toLower (c : Char) : c.toLower.toLower = c.toLower := by
  rw [char_eq_iff_toNat, toLower_toNat]
  rw [if_neg]
  intro hv
  have := isUpper_iff.mpr hv
  rw [toLower_not_isUpper] at this
  exact Bool.noConfusion this

theorem isLower_toLower_of_isUpper {c : Char} (h : c.isUpper = true) :
    (Char.toLower c).isLower = true := by
  have hv := isUpper_iff.mp h
  rw [isLower_iff, toLower_toNat, if_pos hv]
  omega

theorem isUpper_toUpper_of_isLower {c : Char} (h : c.isLower = true) :
    (Char.toUpper c).isUpper = true := by
  have hv := isLower_iff.mp h
  rw [isUpper_iff, toUpper_toNat, if_pos hv]
  omega

theorem isAlpha_toLower {c : Char} (h : c.isAlpha = true) :
    (Char.toLower c).isAlpha = true := by
  rw [Char.isAlpha, Bool.or_eq_true] at h ⊢
  rcases h with h | h
  · exact Or.inr (isLower_toLower_of_isUpper h)
  · have he : c.toLower = c := by
      rw [char_eq_iff_toNat, toLower_toNat, if_neg]
      have := isLower_iff.mp h
      omega
    rw [he]
    exact Or.inr h

theorem isWhitespace_toNat {c : Char} (h : c.isWhitespace = true) :
    c.toNat = 32 ∨ c.toNat = 9 ∨ c.toNat = 10 ∨ c.toNat = 13 := by
  simp only [Char.isWhitespace, Bool.or_eq_true, decide_eq_true_eq,
    char_eq_iff_toNat] at h
  simp only [show (' ').toNat = 32 from rfl, show ('\t').toNat = 9 from rfl,
    show ('\n').toNat = 10 from rfl, show ('\x0d').toNat = 13 from rfl] at h
  omega

theorem not_isWhitespace_of_isUpper {c : Char} (h : c.isUpper = true) :
    c.isWhitespace = false := by
  rw [Bool.eq_false_iff]
  intro hw
  have := isWhitespace_toNat hw
  have := isUpper_iff.mp h
  omega

theorem not_isWhitespace_of_isLower {c : Char} (h : c.isLower = true) :
    c.isWhitespace = false := by
  rw [Bool.eq_false_iff]
  intro hw
  have := isWhitespace_toNat hw
  have := isLower_iff.mp h
  omega

theorem toLower_ne_comma {c : Char} (h : Char.toLower c = ',') : c = ',' := by
  rw [char_eq_iff_toNat] at h ⊢
  rw [toLower_toNat] at h
  have : (',').toNat = 44 := rfl
  split at h <;> omega

/-! ### Infix bridge -/

theorem isInfixB_iff {t l : List Char} : isInfixB t l = true ↔ t <:+: l := by
  induction l with
  | nil =>
    simp only [isInfixB, List.isEmpty_iff, List.infix_nil]
  | cons c l ih =>
    simp only [isInfixB, Bool.or_eq_true, List.isPrefixOf_iff_prefix, ih,
      List.infix_cons_iff]


/-! ### Prefix and infix helpers -/

theorem cons_prefix_inv {a b : Char} {l1 l2 : List Char} (h : a :: l1 <+: b :: l2) :
    a = b ∧ l1 <+: l2 := by
  obtain ⟨r, hr⟩ := h
  injection hr with h1 h2
  exact ⟨h1, ⟨r, h2⟩⟩

theorem cons_prefix_of {a : Char} {l1 l2 : List Char} (h : l1 <+: l2) :
    a :: l1 <+: a :: l2 := by
  obtain ⟨r, hr⟩ := h
  exact ⟨r, by rw [List.cons_append, hr]⟩

theorem infix_cons_of {a : Char} {l1 l2 : List Char} (h : l1 <:+: l2) :
    l1 <:+: a :: l2 := by
  obtain ⟨s, t, ht⟩ := h
  exact ⟨a :: s, t, by rw [← ht]; rfl⟩

theorem getLast_exists_of_ne_nil : ∀ {l : List Char}, l ≠ [] →
    ∃ c, l.getLast? = some c ∧ c ∈ l := by
  intro l
  induction l with
  | nil => intro h; exact absurd rfl h
  | cons a t ih =>
    intro _
    rcases t with _ | ⟨b, t'⟩
    · exact ⟨a, rfl, by simp⟩
    · obtain ⟨c, hc, hmem⟩ := ih (by simp)
      exact ⟨c, by rw [List.getLast?_cons_cons]; exact hc, by simp [hmem]⟩

theorem getLast_cons_cons (a b : Char) (l : List Char) :
    (a :: b :: l).getLast? = (b :: l).getLast? :=
  List.getLast?_cons_cons

/-! ### Trimming lemmas -/

theorem trimR_cons (c : Char) (t : List Char) :
    trimR (c :: t) =
      if c.isWhitespace = true ∧ trimR t = [] then [] else c :: trimR t := by
  by_cases hw : c.isWhitespace = true <;> rcases htr : trimR t with _ | ⟨r, rs⟩ <;>
    simp [trimR, htr, hw]

theorem trimR_eq_nil_iff {l : List Char} :
    trimR l = [] ↔ ∀ c ∈ l, c.isWhitespace = true := by
  induction l with
  | nil => simp [trimR]
  | cons c t ih =>
    rw [trimR_cons]
    by_cases h : c.isWhitespace = true ∧ trimR t = []
    · rw [if_pos h]
      simp only [true_iff]
      intro x hx
      rcases List.mem_cons.mp hx with rfl | hx
      · exact h.1
      · exact ih.mp h.2 x hx
    · rw [if_neg h]
      constructor
      · intro hc
        exact absurd hc (List.cons_ne_nil _ _)
      · intro hall
        exact absurd ⟨hall c (by simp), ih.mpr fun x hx => hall x (by simp [hx])⟩ h

theorem trimR_prefix_self (l : List Char) : trimR l <+: l := by
  induction l with
  | nil => exact List.nil_prefix
  | cons c t ih =>
    rw [trimR_cons]
    split
    · exact List.nil_prefix
    · exact cons_prefix_of ih

theorem trimR_idem (l : List Char) : trimR (trimR l) = trimR l := by
  induction l with
  | nil => rfl
  | cons c t ih =>
    rw [trimR_cons]
    by_cases h : c.isWhitespace = true ∧ trimR t = []
    · rw [if_pos h]; rfl
    · rw [if_neg h, trimR_cons, ih, if_neg h]

theorem dropWhile_idem (p : Char → Bool) (l : List Char) :
    (l.dropWhile p).dropWhile p = l.dropWhile p := by
  induction l with
  | nil => rfl
  | cons c t ih =>
    by_cases hp : p c = true
    · rw [List.dropWhile_cons, if_pos hp, ih]
    · rw [List.dropWhile_cons, if_neg hp, List.dropWhile_cons, if_neg hp]

theorem trimR_dropWhile_comm (l : List Char) :
    trimR (l.dropWhile Char.isWhitespace) = (trimR l).dropWhile Char.isWhitespace := by
  induction l with
  | nil => rfl
  | cons c t ih =>
    by_cases hw : c.isWhitespace = true
    · rw [List.dropWhile_cons, if_pos hw, ih, trimR_cons]
      by_cases ht : trimR t = []
      · rw [if_pos ⟨hw, ht⟩, ht]
      · rw [if_neg fun hh => ht hh.2, List.dropWhile_cons, if_pos hw]
    · rw [List.dropWhile_cons, if_neg hw, trimR_cons, if_neg fun hh => hw hh.1,
        List.dropWhile_cons, if_neg hw]

theorem trim_dropWhile (l : List Char) : trim (l.dropWhile Char.isWhitespace) = trim l := by
  unfold trim
  rw [dropWhile_idem]

theorem trim_trimR (l : List Char) : trim (trimR l) = trim l := by
  unfold trim
  rw [← trimR_dropWhile_comm, trimR_idem]

theorem trimR_eq_self_of_no_ws {l : List Char} (h : ∀ c ∈ l, c.isWhitespace = false) :
    trimR l = l := by
  induction l with
  | nil => rfl
  | cons c t ih =>
    rw [trimR_cons, if_neg, ih fun x hx => h x (by simp [hx])]
    intro hh
    rw [h c (by simp)] at hh
    exact Bool.noConfusion hh.1

theorem trim_eq_self_of_no_ws {l : List Char} (h : ∀ c ∈ l, c.isWhitespace = false) :
    trim l = l := by
  unfold trim
  have hd : l.dropWhile Char.isWhitespace = l := by
    rcases l with _ | ⟨c, t⟩
    · rfl
    · rw [List.dropWhile_cons, if_neg]
      rw [h c (by simp)]
      exact Bool.noConfusion
  rw [hd, trimR_eq_self_of_no_ws h]

theorem prefix_trimR : ∀ (t m : List Char), t <+: m →
    (∀ c, t.getLast? = some c → c.isWhitespace = false) → t <+: trimR m := by
  intro t
  induction t with
  | nil => intro m _ _; exact List.nil_prefix
  | cons a t' ih =>
    intro m hp hl
    rcases m with _ | ⟨b, m'⟩
    · exact absurd (List.prefix_nil.mp hp) (List.cons_ne_nil _ _)
    · obtain ⟨hab, hp'⟩ := cons_prefix_inv hp
      subst hab
      rw [trimR_cons]
      by_cases hcond : a.isWhitespace = true ∧ trimR m' = []
      · exfalso
        rcases t' with _ | ⟨x, t''⟩
        · have := hl a rfl
          rw [this] at hcond
          exact Bool.noConfusion hcond.1
        · obtain ⟨c, hc, hcmem⟩ := getLast_exists_of_ne_nil (l := x :: t'') (by simp)
          have hcv := hl c (by rw [getLast_cons_cons]; exact hc)
          have hsub := hp'.subset hcmem
          have hws := trimR_eq_nil_iff.mp hcond.2 c hsub
          rw [hcv] at hws
          exact Bool.noConfusion hws
      · rw [if_neg hcond]
        refine cons_prefix_of ?hp2
        rcases t' with _ | ⟨x, t''⟩
        · exact List.nil_prefix
        · exact ih m' hp' fun c hc => hl c (by rw [getLast_cons_cons]; exact hc)

theorem infix_dropWhile {c : Char} {t l : List Char} (hc : c.isWhitespace = false)
    (h : (c :: t) <:+: l) : (c :: t) <:+: l.dropWhile Char.isWhitespace := by
  induction l with
  | nil => exact absurd (h.subset (List.mem_cons_self c t)) (List.not_mem_nil c)
  | cons d l' ih =>
    rw [List.dropWhile_cons]
    by_cases hd : d.isWhitespace = true
    · rw [if_pos hd]
      rcases List.infix_cons_iff.mp h with hpre | hinf
      · obtain ⟨heq, _⟩ := cons_prefix_inv hpre
        rw [← heq, hc] at hd
        exact Bool.noConfusion hd
      · exact ih hinf
    · rw [if_neg hd]
      exact h

theorem infix_trimR {t : List Char} (hne : t ≠ [])
    (hl : ∀ c, t.getLast? = some c → c.isWhitespace = false) :
    ∀ {l : List Char}, t <:+: l → t <:+: trimR l := by
  intro l
  induction l with
  | nil =>
    intro h
    rcases t with _ | ⟨x, t'⟩
    · exact absurd rfl hne
    · exact absurd (h.subset (List.mem_cons_self x t')) (List.not_mem_nil x)
  | cons d l' ih =>
    intro h
    rcases List.infix_cons_iff.mp h with hpre | hinf
    · exact (prefix_trimR t (d :: l') hpre hl).isInfix
    · have h1 := ih hinf
      rw [trimR_cons]
      by_cases hcond : d.isWhitespace = true ∧ trimR l' = []
      · rw [hcond.2] at h1
        rcases t with _ | ⟨x, t'⟩
        · exact absurd rfl hne
        · exact absurd (h1.subset (List.mem_cons_self x t')) (List.not_mem_nil x)
      · rw [if_neg hcond]
        exact infix_cons_of h1

theorem infix_trim_iff {t l : List Char} (hne : t ≠ [])
    (hh : ∀ c, t.head? = some c → c.isWhitespace = false)
    (hl : ∀ c, t.getLast? = some c → c.isWhitespace = false) :
    t <:+: trim l ↔ t <:+: l := by
  constructor
  · intro h
    refine h.trans ?htr
    unfold trim
    exact ((trimR_prefix_self _).isInfix).trans (List.dropWhile_suffix _).isInfix
  · intro h
    rcases t with _ | ⟨c, t'⟩
    · exact absurd rfl hne
    · have hc := hh c rfl
      unfold trim
      exact infix_trimR (by simp) hl (infix_dropWhile hc h)

/-! ### Splitting and joining -/

theorem splitC_ne_nil (l : List Char) : splitC l ≠ [] := by
  rcases l with _ | ⟨c, t⟩
  · simp [splitC]
  · by_cases h : c = ','
    · simp [splitC, h]
    · rcases ht : splitC t with _ | ⟨h2, t2⟩ <;> simp [splitC, h, ht]

theorem splitC_cons_comma (t : List Char) : splitC (',' :: t) = [] :: splitC t := by
  simp [splitC]

theorem splitC_cons_of_ne {c : Char} (hc : c ≠ ',') {t : List Char} {hd : List Char}
    {tl : List (List Char)} (ht : splitC t = hd :: tl) :
    splitC (c :: t) = (c :: hd) :: tl := by
  simp [splitC, hc, ht]

theorem joinC_cons_of_ne {ss : List (List Char)} (h : ss ≠ []) (s : List Char) :
    joinC (s :: ss) = s ++ ',' :: joinC ss := by
  rcases ss with _ | ⟨a, t⟩
  · exact absurd rfl h
  · rfl

theorem joinC_splitC : ∀ l : List Char, joinC (splitC l) = l := by
  intro l
  induction l with
  | nil => rfl
  | cons c t ih =>
    by_cases hc : c = ','
    · subst hc
      rw [splitC_cons_comma, joinC_cons_of_ne (splitC_ne_nil t), ih]
      rfl
    · obtain ⟨hd, tl, hht⟩ := List.exists_cons_of_ne_nil (splitC_ne_nil t)
      rw [splitC_cons_of_ne hc hht]
      rcases tl with _ | ⟨a, tl'⟩
      · rw [hht] at ih
        have hht2 : hd = t := ih
        simp [joinC, hht2]
      · rw [hht] at ih
        rw [joinC_cons_of_ne (by simp)] at ih ⊢
        rw [List.cons_append, ih]

theorem splitC_no_comma : ∀ {s : List Char}, (',') ∉ s → splitC s = [s] := by
  intro s
  induction s with
  | nil => intro _; rfl
  | cons c t ih =>
    intro h
    have hc : c ≠ ',' := fun hh => h (by simp [hh])
    exact splitC_cons_of_ne hc (ih fun hh => h (by simp [hh]))

theorem splitC_append_comma {r : List Char} :
    ∀ {s : List Char}, (',') ∉ s → splitC (s ++ ',' :: r) = s :: splitC r := by
  intro s
  induction s with
  | nil => intro _; exact splitC_cons_comma r
  | cons c s2 ih =>
    intro h
    have hc : c ≠ ',' := fun hh => h (by simp [hh])
    rw [List.cons_append]
    exact splitC_cons_of_ne hc (ih fun hh => h (by simp [hh]))

theorem splitC_joinC : ∀ {ss : List (List Char)}, ss ≠ [] →
    (∀ s ∈ ss, (',') ∉ s) → splitC (joinC ss) = ss := by
  intro ss
  induction ss with
  | nil => intro h _; exact absurd rfl h
  | cons s ss2 ih =>
    intro _ hcf
    rcases ss2 with _ | ⟨a, t⟩
    · exact splitC_no_comma (hcf s (by simp))
    · rw [joinC_cons_of_ne (by simp), splitC_append_comma (hcf s (by simp)),
        ih (by simp) fun x hx => hcf x (by simp [hx])]

theorem mem_splitC_no_comma : ∀ {l : List Char}, ∀ p ∈ splitC l, (',') ∉ p := by
  intro l
  induction l with
  | nil => intro p hp; simp [splitC] at hp; simp [hp]
  | cons c t ih =>
    intro p hp
    by_cases hc : c = ','
    · subst hc
      rw [splitC_cons_comma] at hp
      rcases List.mem_cons.mp hp with rfl | hp2
      · simp
      · exact ih p hp2
    · obtain ⟨hd, tl, hht⟩ := List.exists_cons_of_ne_nil (splitC_ne_nil t)
      rw [splitC_cons_of_ne hc hht] at hp
      rcases List.mem_cons.mp hp with rfl | hp2
      · intro hmem
        rcases List.mem_cons.mp hmem with h1 | h1
        · exact hc h1.symm
        · exact ih hd (by rw [hht]; simp) h1
      · exact ih p (by rw [hht]; simp [hp2])

theorem mem_infix_joinC : ∀ {ss : List (List Char)}, ∀ s ∈ ss, s <:+: joinC ss := by
  intro ss
  induction ss with
  | nil => intro s hs; simp at hs
  | cons a ss2 ih =>
    intro s hs
    rcases List.mem_cons.mp hs with rfl | hs2
    · rcases ss2 with _ | ⟨b, t⟩
      · exact List.infix_refl s
      · rw [joinC_cons_of_ne (by simp)]
        exact (List.prefix_append s _).isInfix
    · have hne : ss2 ≠ [] := fun hh => by rw [hh] at hs2; simp at hs2
      rw [joinC_cons_of_ne hne]
      refine (ih s hs2).trans ?hsfx
      exact ((List.suffix_cons ',' (joinC ss2)).trans (List.suffix_append a _)).isInfix

theorem prefix_append_comma {B : List Char} :
    ∀ {t A : List Char}, (',') ∉ t → t <+: A ++ ',' :: B → t <+: A := by
  intro t
  induction t with
  | nil => intro A _ _; exact List.nil_prefix
  | cons x t' ih =>
    intro A hcf hp
    rcases A with _ | ⟨a, A'⟩
    · obtain ⟨hx, _⟩ := cons_prefix_inv hp
      exact absurd (by simp [hx]) hcf
    · obtain ⟨hx, hp'⟩ := cons_prefix_inv hp
      subst hx
      exact cons_prefix_of (ih (fun hh => hcf (by simp [hh])) hp')

theorem infix_append_comma_iff {t B : List Char} (hcf : (',') ∉ t) (hne : t ≠ []) :
    ∀ {A : List Char}, (t <:+: A ++ ',' :: B ↔ t <:+: A ∨ t <:+: B) := by
  intro A
  constructor
  · induction A with
    | nil =>
      intro h
      rcases List.infix_cons_iff.mp h with hpre | hinf
      · rcases t with _ | ⟨c, t'⟩
        · exact absurd rfl hne
        · obtain ⟨hc, _⟩ := cons_prefix_inv hpre
          exact absurd (by simp [hc]) hcf
      · exact Or.inr hinf
    | cons a A' ihA =>
      intro h
      rcases List.infix_cons_iff.mp h with hpre | hinf
      · rcases t with _ | ⟨c, t'⟩
        · exact absurd rfl hne
        · obtain ⟨hc, hp'⟩ := cons_prefix_inv hpre
          subst hc
          have hp2 : t' <+: A' := prefix_append_comma (fun hh => hcf (by simp [hh])) hp'
          exact Or.inl (cons_prefix_of hp2).isInfix
      · rcases ihA hinf with h2 | h2
        · exact Or.inl (infix_cons_of h2)
        · exact Or.inr h2
  · intro h
    rcases h with h | h
    · exact h.trans (List.prefix_append A (',' :: B)).isInfix
    · exact h.trans ((List.suffix_cons ',' B).trans (List.suffix_append A _)).isInfix

theorem infix_joinC_iff {t : List Char} (hcf : (',') ∉ t) (hne : t ≠ []) :
    ∀ {ss : List (List Char)}, ss ≠ [] → (t <:+: joinC ss ↔ ∃ s ∈ ss, t <:+: s) := by
  intro ss
  induction ss with
  | nil => intro h; exact absurd rfl h
  | cons s ss2 ih =>
    intro _
    rcases ss2 with _ | ⟨a, t2⟩
    · constructor
      · intro h; exact ⟨s, by simp, h⟩
      · intro h
        obtain ⟨x, hx, hinf⟩ := h
        rcases List.mem_cons.mp hx with rfl | hx2
        · exact hinf
        · simp at hx2
    · rw [joinC_cons_of_ne (by simp), infix_append_comma_iff hcf hne, ih (by simp)]
      simp [List.exists_mem_cons_iff]

theorem joinC_eq_nil_iff {ss : List (List Char)} :
    joinC ss = [] ↔ ss = [] ∨ ss = [[]] := by
  rcases ss with _ | ⟨s, ss2⟩
  · simp [joinC]
  · rcases ss2 with _ | ⟨a, t⟩
    · show s = [] ↔ _
      simp
    · rw [joinC_cons_of_ne (by simp)]
      simp

/-! ### Lowercasing -/

theorem lowerL_joinC : ∀ ss : List (List Char), lowerL (joinC ss) = joinC (ss.map lowerL) := by
  intro ss
  induction ss with
  | nil => rfl
  | cons s ss2 ih =>
    rcases ss2 with _ | ⟨a, t⟩
    · rfl
    · rw [List.map_cons, joinC_cons_of_ne (by simp),
        joinC_cons_of_ne (show (List.map lowerL (a :: t)) ≠ [] by simp), ← ih]
      simp only [lowerL, List.map_append, List.map_cons]
      rfl

theorem lowerL_idem (l : List Char) : lowerL (lowerL l) = lowerL l := by
  simp only [lowerL, List.map_map]
  exact List.map_congr_left fun c _ => toLower_toLower c

theorem lowerL_no_comma {l : List Char} (h : (',') ∉ l) : (',') ∉ lowerL l := by
  intro hmem
  simp only [lowerL, List.mem_map] at hmem
  obtain ⟨c, hc, hcl⟩ := hmem
  rw [toLower_ne_comma hcl] at hc
  exact h hc


/-! ### Splitting through trimming -/

def mHead (f : List Char → List Char) : List (List Char) → List (List Char)
  | [] => []
  | a :: t => f a :: t

def mLast (f : List Char → List Char) : List (List Char) → List (List Char)
  | [] => []
  | [a] => [f a]
  | a :: b :: t => a :: mLast f (b :: t)

theorem mLast_cons_of_ne {l : List (List Char)} (h : l ≠ []) (f : List Char → List Char)
    (a : List Char) : mLast f (a :: l) = a :: mLast f l := by
  rcases l with _ | ⟨b, t⟩
  · exact absurd rfl h
  · rfl

theorem splitC_dropWhile (l : List Char) :
    splitC (l.dropWhile Char.isWhitespace) =
      mHead (List.dropWhile Char.isWhitespace) (splitC l) := by
  induction l with
  | nil => rfl
  | cons c t ih =>
    by_cases hw : c.isWhitespace = true
    · have hc : c ≠ ',' := by
        intro h
        rw [h, show (',').isWhitespace = false from rfl] at hw
        exact Bool.noConfusion hw
      rw [List.dropWhile_cons, if_pos hw, ih]
      obtain ⟨hd, tl, hht⟩ := List.exists_cons_of_ne_nil (splitC_ne_nil t)
      rw [splitC_cons_of_ne hc hht, hht]
      show mHead _ (hd :: tl) = mHead _ ((c :: hd) :: tl)
      simp only [mHead]
      rw [List.dropWhile_cons, if_pos hw]
    · rw [List.dropWhile_cons, if_neg hw]
      by_cases hc : c = ','
      · subst hc
        rw [splitC_cons_comma]
        rfl
      · obtain ⟨hd, tl, hht⟩ := List.exists_cons_of_ne_nil (splitC_ne_nil t)
        rw [splitC_cons_of_ne hc hht]
        simp only [mHead]
        rw [List.dropWhile_cons, if_neg hw]

theorem splitC_trimR (l : List Char) : splitC (trimR l) = mLast trimR (splitC l) := by
  induction l with
  | nil => rfl
  | cons c t ih =>
    by_cases hc : c = ','
    · subst hc
      have hw : (',').isWhitespace = false := rfl
      rw [trimR_cons, if_neg fun hh => Bool.noConfusion (hw ▸ hh.1)]
      rw [splitC_cons_comma, splitC_cons_comma, ih, mLast_cons_of_ne (splitC_ne_nil t)]
    · by_cases hcond : c.isWhitespace = true ∧ trimR t = []
      · rw [trimR_cons, if_pos hcond]
        have hallws : ∀ x ∈ t, x.isWhitespace = true := trimR_eq_nil_iff.mp hcond.2
        have hnotin : (',') ∉ t := fun hm => by
          have hx := hallws ',' hm
          rw [show (',').isWhitespace = false from rfl] at hx
          exact Bool.noConfusion hx
        rw [splitC_cons_of_ne hc (splitC_no_comma hnotin)]
        show [[]] = [trimR (c :: t)]
        rw [trimR_cons, if_pos hcond]
      · rw [trimR_cons, if_neg hcond]
        obtain ⟨hd, tl, hht⟩ := List.exists_cons_of_ne_nil (splitC_ne_nil t)
        rcases tl with _ | ⟨a, tl'⟩
        · have heq : hd = t := by
            have hj := joinC_splitC t
            rw [hht] at hj
            exact hj
          rw [heq] at hht
          have ihv : splitC (trimR t) = [trimR t] := by
            rw [ih, hht]
            rfl
          rw [splitC_cons_of_ne hc ihv, splitC_cons_of_ne hc hht]
          show [c :: trimR t] = [trimR (c :: t)]
          rw [trimR_cons, if_neg hcond]
        · have ihv : splitC (trimR t) = hd :: mLast trimR (a :: tl') := by
            rw [ih, hht]
            rfl
          rw [splitC_cons_of_ne hc ihv, splitC_cons_of_ne hc hht]
          rfl

theorem map_mHead_absorb {β : Type} {f : List Char → List Char} {g : List Char → β}
    (h : ∀ a, g (f a) = g a) :
    ∀ l, (mHead f l).map g = l.map g := by
  intro l
  rcases l with _ | ⟨a, t⟩
  · rfl
  · simp [mHead, h]

theorem map_mLast_absorb {β : Type} {f : List Char → List Char} {g : List Char → β}
    (h : ∀ a, g (f a) = g a) :
    ∀ l, (mLast f l).map g = l.map g
  | [] => rfl
  | [a] => by simp [mLast, h]
  | a :: b :: t => by
    rw [mLast_cons_of_ne (by simp), List.map_cons, List.map_cons,
      map_mLast_absorb h (b :: t)]

theorem splitC_trim_map {β : Type} {g : List Char → β}
    (hg1 : ∀ a, g (a.dropWhile Char.isWhitespace) = g a) (hg2 : ∀ a, g (trimR a) = g a)
    (l : List Char) : (splitC (trim l)).map g = (splitC l).map g := by
  unfold trim
  rw [splitC_trimR, splitC_dropWhile, map_mLast_absorb hg2, map_mHead_absorb hg1]

/-! ### The code order -/

theorem clLeB_cons (a b : Char) (as bs : List Char) :
    clLeB (a :: as) (b :: bs) =
      if a < b then true else if a = b then clLeB as bs else false := rfl

theorem clLeB_total : ∀ a b : List Char, clLeB a b = true ∨ clLeB b a = true
  | [], _ => Or.inl rfl
  | _ :: _, [] => Or.inr rfl
  | a :: as, b :: bs => by
    rcases lt_trichotomy a b with h | h | h
    · left
      rw [clLeB_cons, if_pos h]
    · subst h
      rcases clLeB_total as bs with h2 | h2
      · left
        rw [clLeB_cons, if_neg (lt_irrefl a), if_pos rfl]
        exact h2
      · right
        rw [clLeB_cons, if_neg (lt_irrefl a), if_pos rfl]
        exact h2
    · right
      rw [clLeB_cons, if_pos h]

theorem clLeB_trans : ∀ a b c : List Char,
    clLeB a b = true → clLeB b c = true → clLeB a c = true
  | [], _, _, _, _ => rfl
  | a :: as, [], c, hab, _ => by
    rw [show clLeB (a :: as) [] = false from rfl] at hab
    exact Bool.noConfusion hab
  | a :: as, b :: bs, [], _, hbc => by
    rw [show clLeB (b :: bs) [] = false from rfl] at hbc
    exact Bool.noConfusion hbc
  | a :: as, b :: bs, c :: cs, hab, hbc => by
    rw [clLeB_cons] at hab hbc ⊢
    rcases lt_trichotomy a b with h1 | h1 | h1
    · rcases lt_trichotomy b c with h2 | h2 | h2
      · rw [if_pos (lt_trans h1 h2)]
      · subst h2
        rw [if_pos h1]
      · rw [if_neg (asymm h2), if_neg (ne_of_gt h2)] at hbc
        exact Bool.noConfusion hbc
    · subst h1
      rcases lt_trichotomy a c with h2 | h2 | h2
      · rw [if_pos h2]
      · subst h2
        rw [if_neg (lt_irrefl a), if_pos rfl] at hab hbc ⊢
        exact clLeB_trans as bs cs hab hbc
      · rw [if_neg (asymm h2), if_neg (ne_of_gt h2)] at hbc
        exact Bool.noConfusion hbc
    · rw [if_neg (asymm h1), if_neg (ne_of_gt h1)] at hab
      exact Bool.noConfusion hab

theorem clLeB_antisymm : ∀ a b : List Char, clLeB a b = true → clLeB b a = true → a = b
  | [], [], _, _ => rfl
  | [], b :: bs, _, hba => by
    rw [show clLeB (b :: bs) [] = false from rfl] at hba
    exact Bool.noConfusion hba
  | a :: as, [], hab, _ => by
    rw [show clLeB (a :: as) [] = false from rfl] at hab
    exact Bool.noConfusion hab
  | a :: as, b :: bs, hab, hba => by
    rw [clLeB_cons] at hab hba
    rcases lt_trichotomy a b with h | h | h
    · rw [if_neg (asymm h), if_neg (ne_of_gt h)] at hba
      exact Bool.noConfusion hba
    · subst h
      rw [if_neg (lt_irrefl a), if_pos rfl] at hab hba
      rw [clLeB_antisymm as bs hab hba]
    · rw [if_neg (asymm h), if_neg (ne_of_gt h)] at hab
      exact Bool.noConfusion hab

instance : IsTotal (List Char) clLe := ⟨clLeB_total⟩

instance : IsTrans (List Char) clLe := ⟨clLeB_trans⟩

instance : IsAntisymm (List Char) clLe := ⟨clLeB_antisymm⟩

theorem sortCodes_perm_eq {l1 l2 : List (List Char)} (h : l1.Perm l2) :
    sortCodes l1 = sortCodes l2 := by
  unfold sortCodes
  have hs1 := List.sorted_insertionSort clLe l1.dedup
  have hs2 := List.sorted_insertionSort clLe l2.dedup
  exact List.eq_of_perm_of_sorted
    (((List.perm_insertionSort clLe l1.dedup).trans h.dedup).trans
      (List.perm_insertionSort clLe l2.dedup).symm) hs1 hs2

theorem sortCodes_mem {l : List (List Char)} {x : List Char} :
    x ∈ sortCodes l ↔ x ∈ l := by
  unfold sortCodes
  rw [(List.perm_insertionSort clLe l.dedup).mem_iff, List.mem_dedup]

theorem sortCodes_nodup (l : List (List Char)) : (sortCodes l).Nodup :=
  ((List.perm_insertionSort clLe l.dedup).nodup_iff).mpr (List.nodup_dedup l)

theorem sortCodes_idem (l : List (List Char)) : sortCodes (sortCodes l) = sortCodes l := by
  show List.insertionSort clLe (sortCodes l).dedup = sortCodes l
  rw [List.dedup_eq_self.mpr (sortCodes_nodup l)]
  exact List.Sorted.insertionSort_eq (List.sorted_insertionSort clLe _)


/-! ### The component view of map_airlines -/

/-- The cleaned comma components of the lowered input, before the global
strip; `map_airlines` is a function of these alone. -/
def compsOf (s : List Char) : List (List Char) :=
  (splitC (lowerL s)).map fun a => lowerL (trim a)

/-- `map_airlines` on nonempty input, re-expressed over `compsOf`. -/
def map_airlines_core (comps : List (List Char)) : Option (List Char) :=
  if ANY_TOKENS.any (fun tok => comps.any fun m => isInfixB tok m) then none
  else
    let codes := (comps.filterMap fun a => if a = [] then none else some a).filterMap codeOf
    if codes = [] then none else some (joinC (sortCodes codes))

theorem bool_eq_of_iff {a b : Bool} (h : a = true ↔ b = true) : a = b := by
  cases a <;> cases b <;> simp_all

theorem opt_ws_of_all {o : Option Char} (h : o.all (fun c => !c.isWhitespace) = true) :
    ∀ c, o = some c → c.isWhitespace = false := by
  intro c hc
  rw [hc] at h
  simpa using h

theorem lowerL_eq_self {l : List Char} (h : ∀ c ∈ l, Char.toLower c = c) : lowerL l = l := by
  have h2 : l.map Char.toLower = l.map id := List.map_congr_left fun c hc => h c hc
  rw [lowerL, h2, List.map_id]

theorem trim_infix_self (l : List Char) : trim l <:+: l := by
  unfold trim
  exact ((trimR_prefix_self _).isInfix).trans (List.dropWhile_suffix _).isInfix

theorem infix_of_mem_splitC {p l : List Char} (hp : p ∈ splitC l) : p <:+: l := by
  have h := mem_infix_joinC p hp
  rwa [joinC_splitC] at h

theorem comps_lower_fixed {s : List Char} :
    ∀ m ∈ splitC (lowerL s), lowerL (trim m) = trim m := by
  intro m hm
  apply lowerL_eq_self
  intro c hc
  have hc2 : c ∈ m := (trim_infix_self m).subset hc
  have hc3 : c ∈ lowerL s := (infix_of_mem_splitC hm).subset hc2
  obtain ⟨d, _, rfl⟩ := List.mem_map.mp hc3
  exact toLower_toLower d

theorem any_token_core (s : List Char) :
    (ANY_TOKENS.any fun tok => isInfixB tok (trim (lowerL s))) =
      (ANY_TOKENS.any fun tok => (compsOf s).any fun m => isInfixB tok m) := by
  have key : ∀ tok ∈ ANY_TOKENS,
      (isInfixB tok (trim (lowerL s)) = true ↔
        ((compsOf s).any fun m => isInfixB tok m) = true) := by
    intro tok htok
    obtain ⟨h1, h2, h3, h4⟩ : tok ≠ [] ∧ (',') ∉ tok ∧
        (∀ c, tok.head? = some c → c.isWhitespace = false) ∧
        (∀ c, tok.getLast? = some c → c.isWhitespace = false) := by
      fin_cases htok <;>
        exact ⟨by decide, by decide, opt_ws_of_all (by decide), opt_ws_of_all (by decide)⟩
    rw [isInfixB_iff, infix_trim_iff h1 h3 h4]
    have hjc := infix_joinC_iff h2 h1 (splitC_ne_nil (lowerL s))
    rw [joinC_splitC] at hjc
    rw [hjc, List.any_eq_true]
    constructor
    · rintro ⟨m, hm, hinf⟩
      refine ⟨lowerL (trim m), List.mem_map_of_mem _ hm, ?hgoal⟩
      rw [comps_lower_fixed m hm, isInfixB_iff]
      exact (infix_trim_iff h1 h3 h4).mpr hinf
    · rintro ⟨a, ha, hinf⟩
      obtain ⟨m, hm, rfl⟩ := List.mem_map.mp ha
      rw [comps_lower_fixed m hm, isInfixB_iff] at hinf
      exact ⟨m, hm, (infix_trim_iff h1 h3 h4).mp hinf⟩
  apply bool_eq_of_iff
  rw [List.any_eq_true, List.any_eq_true]
  constructor
  · rintro ⟨tok, ht, hp⟩
    exact ⟨tok, ht, (key tok ht).mp hp⟩
  · rintro ⟨tok, ht, hq⟩
    exact ⟨tok, ht, (key tok ht).mpr hq⟩

theorem airlines_core (s : List Char) :
    ((splitC (trim (lowerL s))).filterMap fun a =>
        if lowerL (trim a) = [] then none else some (lowerL (trim a))) =
      (compsOf s).filterMap fun a => if a = [] then none else some a := by
  have habs : (splitC (trim (lowerL s))).map
        (fun a => if lowerL (trim a) = [] then none else some (lowerL (trim a))) =
      (splitC (lowerL s)).map
        (fun a => if lowerL (trim a) = [] then none else some (lowerL (trim a))) := by
    apply splitC_trim_map
    · intro a
      rw [trim_dropWhile]
    · intro a
      rw [trim_trimR]
  have h1 : ∀ m : List Char, (splitC m).filterMap
        (fun a => if lowerL (trim a) = [] then none else some (lowerL (trim a))) =
      ((splitC m).map
        (fun a => if lowerL (trim a) = [] then none else some (lowerL (trim a)))).filterMap
        id := by
    intro m
    rw [List.filterMap_map]
    rfl
  rw [h1, habs, ← h1]
  unfold compsOf
  rw [List.filterMap_map]
  rfl

theorem map_airlines_eq_core {s : List Char} (hne : s ≠ []) :
    map_airlines (some s) = map_airlines_core (compsOf s) := by
  simp only [map_airlines, map_airlines_core]
  rw [if_neg hne]
  rw [any_token_core]
  by_cases hany : (ANY_TOKENS.any fun tok => (compsOf s).any fun m => isInfixB tok m) = true
  · rw [if_pos hany, if_pos hany]
  · rw [if_neg hany, if_neg hany]
    rw [airlines_core]

theorem normalize_price_idem (x : Option (List Char)) :
    normalize_price (normalize_price x) = normalize_price x := by
  rcases x with _ | v
  · rfl
  · by_cases hv : v = []
    · simp [normalize_price, hv]
    · by_cases hc : v.filter Char.isDigit = []
      · simp [normalize_price, hv, hc]
      · have hall : (v.filter Char.isDigit).all Char.isDigit = true := by
          rw [List.all_eq_true]
          intro c hcmem
          exact (List.mem_filter.mp hcmem).2
        have hfil : (v.filter Char.isDigit).filter Char.isDigit = v.filter Char.isDigit :=
          List.filter_eq_self.mpr fun c hcm => (List.mem_filter.mp hcm).2
        have h1 : normalize_price (some v) = some (v.filter Char.isDigit) := by
          simp only [normalize_price]
          rw [if_neg hv, if_pos ⟨hc, hall⟩]
        rw [h1]
        simp only [normalize_price]
        rw [if_neg hc, hfil, if_pos ⟨hc, hall⟩]

theorem map_airlines_core_perm {c1 c2 : List (List Char)} (h : c1.Perm c2) :
    map_airlines_core c1 = map_airlines_core c2 := by
  unfold map_airlines_core
  have hany : ∀ tok : List Char,
      (c1.any fun m => isInfixB tok m) = (c2.any fun m => isInfixB tok m) := by
    intro tok
    apply bool_eq_of_iff
    rw [List.any_eq_true, List.any_eq_true]
    constructor
    · rintro ⟨m, hm, hx⟩
      exact ⟨m, h.mem_iff.mp hm, hx⟩
    · rintro ⟨m, hm, hx⟩
      exact ⟨m, h.mem_iff.mpr hm, hx⟩
  rw [show (fun tok => c1.any fun m => isInfixB tok m) =
      (fun tok => c2.any fun m => isInfixB tok m) from funext hany]
  by_cases hb : (ANY_TOKENS.any fun tok => c2.any fun m => isInfixB tok m) = true
  · rw [if_pos hb, if_pos hb]
  · rw [if_neg hb, if_neg hb]
    dsimp only
    have hperm : ((c1.filterMap fun a => if a = [] then none else some a).filterMap codeOf).Perm
        ((c2.filterMap fun a => if a = [] then none else some a).filterMap codeOf) :=
      (h.filterMap _).filterMap _
    by_cases hcn : (c1.filterMap fun a => if a = [] then none else some a).filterMap codeOf = []
    · have hcn2 : (c2.filterMap fun a => if a = [] then none else some a).filterMap codeOf = [] :=
        ((hcn ▸ hperm).symm).eq_nil
      rw [if_pos hcn, if_pos hcn2]
    · have hcn2 : ¬(c2.filterMap fun a => if a = [] then none else some a).filterMap codeOf = [] :=
        fun hh => hcn ((hh ▸ hperm.symm).symm).eq_nil
      rw [if_neg hcn, if_neg hcn2, sortCodes_perm_eq hperm]

theorem compsOf_joinC {ms : List (List Char)} (hne : ms ≠ []) (hcf : ∀ n ∈ ms, (',') ∉ n) :
    compsOf (joinC ms) = ms.map fun n => lowerL (trim (lowerL n)) := by
  unfold compsOf
  rw [lowerL_joinC, splitC_joinC (by simpa using hne) ?hcf2, List.map_map]
  · rfl
  case hcf2 =>
    intro x hx
    obtain ⟨n, hn, rfl⟩ := List.mem_map.mp hx
    exact lowerL_no_comma (hcf n hn)

theorem map_airlines_join_perm {ns ns2 : List (List Char)} (hperm : ns.Perm ns2)
    (hcf : ∀ n ∈ ns, (',') ∉ n) :
    map_airlines (some (joinC ns)) = map_airlines (some (joinC ns2)) := by
  have hcf2 : ∀ n ∈ ns2, (',') ∉ n := fun n hn => hcf n (hperm.mem_iff.mpr hn)
  by_cases hnil : joinC ns = []
  · have h2 : joinC ns2 = [] := by
      rw [joinC_eq_nil_iff] at hnil ⊢
      rcases hnil with h | h
      · exact Or.inl (h ▸ hperm).symm.eq_nil
      · exact Or.inr (List.perm_singleton.mp (h ▸ hperm).symm)
    rw [hnil, h2]
  · have hns : ns ≠ [] := fun hh => hnil (by rw [hh]; rfl)
    have hns2 : ns2 ≠ [] := fun hh => hns (hh ▸ hperm).eq_nil
    have hnil2 : joinC ns2 ≠ [] := by
      rw [Ne, joinC_eq_nil_iff]
      rintro (h | h)
      · exact hns2 h
      · apply hnil
        rw [joinC_eq_nil_iff]
        exact Or.inr (List.perm_singleton.mp (h ▸ hperm.symm).symm)
    rw [map_airlines_eq_core hnil, map_airlines_eq_core hnil2]
    apply map_airlines_core_perm
    rw [compsOf_joinC hns hcf, compsOf_joinC hns2 hcf2]
    exact hperm.map _


/-! ### Restricted idempotence of map_airlines -/

theorem toLower_ws {c : Char} (h : (Char.toLower c).isWhitespace = true) :
    c.isWhitespace = true := by
  by_cases hu : 65 ≤ c.toNat ∧ c.toNat ≤ 90
  · exfalso
    have h2 := isWhitespace_toNat h
    rw [toLower_toNat, if_pos hu] at h2
    omega
  · have he : Char.toLower c = c := char_eq_iff_toNat.mpr (by rw [toLower_toNat, if_neg hu])
    rwa [he] at h

theorem not_ws_toLower {c : Char} (h : c.isWhitespace = false) :
    (Char.toLower c).isWhitespace = false := by
  rw [Bool.eq_false_iff] at h ⊢
  exact fun hh => h (toLower_ws hh)

theorem lookup_mem : ∀ {l : List (List Char × List Char)} {a b : List Char},
    l.lookup a = some b → b ∈ l.map Prod.snd := by
  intro l
  induction l with
  | nil =>
    intro a b h
    exact Option.noConfusion h
  | cons kv t ih =>
    intro a b h
    rcases kv with ⟨k, v⟩
    simp only [List.lookup] at h
    split at h
    · obtain rfl : b = v := (Option.some.inj h).symm
      simp
    · rw [List.map_cons]
      exact List.mem_cons_of_mem _ (ih h)

theorem filterMap_eq_map_of {α β : Type} {f : α → Option β} {g : α → β} :
    ∀ {l : List α}, (∀ x ∈ l, f x = some (g x)) → l.filterMap f = l.map g := by
  intro l
  induction l with
  | nil => intro _; rfl
  | cons a t ih =>
    intro h
    simp only [List.filterMap_cons, h a (List.mem_cons_self a t), List.map_cons]
    rw [ih fun x hx => h x (List.mem_cons_of_mem a hx)]

theorem codeOf_props {a code : List Char} (ha : ∀ c ∈ a, Char.toLower c = c)
    (hno : isInfixB (("any").toList) a = false) (hcode : codeOf a = some code) :
    code ≠ [] ∧ code.length ≤ 3 ∧ (∀ c ∈ code, c.isWhitespace = false) ∧
      ((',') ∉ code) ∧ isInfixB (("any").toList) (lowerL code) = false ∧
      (code.all Char.isAlpha = true → code.all Char.isUpper = true) := by
  unfold codeOf at hcode
  by_cases hb : a.length ≤ 3 ∧ a ≠ [] ∧ a.all Char.isAlpha = true
  · rw [if_pos hb] at hcode
    obtain rfl : code = a.map Char.toUpper := (Option.some.inj hcode).symm
    have hlow : ∀ c ∈ a, c.isLower = true := by
      intro c hc
      have halc : c.isAlpha = true := List.all_eq_true.mp hb.2.2 c hc
      rw [Char.isAlpha, Bool.or_eq_true] at halc
      rcases halc with hu | hl
      · exfalso
        have h1 := isUpper_iff.mp hu
        have h2 : (Char.toLower c).toNat = c.toNat := by rw [ha c hc]
        rw [toLower_toNat, if_pos h1] at h2
        omega
      · exact hl
    have hupper : ∀ c ∈ a.map Char.toUpper, c.isUpper = true := by
      intro c hc
      obtain ⟨d, hd, rfl⟩ := List.mem_map.mp hc
      exact isUpper_toUpper_of_isLower (hlow d hd)
    have hfix : lowerL (a.map Char.toUpper) = a := by
      rw [lowerL, List.map_map]
      refine Eq.trans (List.map_congr_left ?hcg) (List.map_id a)
      intro c hc
      exact toLower_toUpper_of_isLower (hlow c hc)
    refine ⟨by simpa using hb.2.1, by rw [List.length_map]; exact hb.1,
      fun c hc => not_isWhitespace_of_isUpper (hupper c hc),
      fun hmem => absurd (hupper ',' hmem) (by decide),
      by rw [hfix]; exact hno,
      fun _ => List.all_eq_true.mpr hupper⟩
  · rw [if_neg hb] at hcode
    have hmem : code ∈ AIRLINE_MAP.map Prod.snd := by
      by_cases hl : (AIRLINE_MAP.lookup a).isSome = true
      · rw [if_pos hl] at hcode
        exact lookup_mem hcode
      · rw [if_neg hl] at hcode
        rcases hf : AIRLINE_MAP.find? (fun kv =>
            isInfixB (kv.1.filter fun c => c ≠ ' ') (a.filter fun c => c ≠ ' ')) with _ | kv
        · rw [hf] at hcode
          exact Option.noConfusion hcode
        · rw [hf] at hcode
          obtain rfl : code = kv.2 := (Option.some.inj hcode).symm
          exact List.mem_map_of_mem _ (List.mem_of_find?_eq_some hf)
    have hvals : ∀ v ∈ AIRLINE_MAP.map Prod.snd, v ≠ [] ∧ v.length ≤ 3 ∧
        (∀ c ∈ v, c.isWhitespace = false) ∧ ((',') ∉ v) ∧
        isInfixB (("any").toList) (lowerL v) = false ∧
        (v.all Char.isAlpha = true → v.all Char.isUpper = true) := by decide
    exact hvals code hmem

theorem mem_joinC : ∀ {ss : List (List Char)} {c : Char}, c ∈ joinC ss →
    (∃ x ∈ ss, c ∈ x) ∨ c = ',' := by
  intro ss
  induction ss with
  | nil =>
    intro c hc
    exact absurd hc (List.not_mem_nil c)
  | cons s ss2 ih =>
    intro c hc
    rcases ss2 with _ | ⟨a, t⟩
    · exact Or.inl ⟨s, by simp, hc⟩
    · rw [joinC_cons_of_ne (by simp)] at hc
      rcases List.mem_append.mp hc with h | h
      · exact Or.inl ⟨s, by simp, h⟩
      · rcases List.mem_cons.mp h with h2 | h2
        · exact Or.inr h2
        · rcases ih h2 with ⟨x, hx, hcx⟩ | h3
          · exact Or.inl ⟨x, by simp [hx], hcx⟩
          · exact Or.inr h3

theorem map_airlines_restricted_idem {s t : List Char}
    (hm : map_airlines (some s) = some t)
    (halpha : ∀ chunk ∈ splitC t, chunk.all Char.isAlpha = true) :
    map_airlines (some t) = some t := by
  have hsne : s ≠ [] := by
    intro h
    rw [h] at hm
    simp [map_airlines] at hm
  rw [map_airlines_eq_core hsne] at hm
  unfold map_airlines_core at hm
  by_cases hany : (ANY_TOKENS.any fun tok => (compsOf s).any fun m => isInfixB tok m) = true
  · rw [if_pos hany] at hm
    exact Option.noConfusion hm
  · rw [if_neg hany] at hm
    dsimp only at hm
    by_cases hcn :
        ((compsOf s).filterMap fun a => if a = [] then none else some a).filterMap codeOf = []
    · rw [if_pos hcn] at hm
      exact Option.noConfusion hm
    · rw [if_neg hcn] at hm
      have ht : joinC (sortCodes
          (((compsOf s).filterMap fun a => if a = [] then none else some a).filterMap codeOf))
          = t := Option.some.inj hm
      set codes :=
        ((compsOf s).filterMap fun a => if a = [] then none else some a).filterMap codeOf
        with hcodes_def
      have hQ : ∀ code ∈ codes, code ≠ [] ∧ code.length ≤ 3 ∧
          (∀ c ∈ code, c.isWhitespace = false) ∧ ((',') ∉ code) ∧
          isInfixB (("any").toList) (lowerL code) = false ∧
          (code.all Char.isAlpha = true → code.all Char.isUpper = true) := by
        intro code hcodemem
        obtain ⟨a, ha2, hco⟩ := List.mem_filterMap.mp hcodemem
        obtain ⟨x, hx, hfx⟩ := List.mem_filterMap.mp ha2
        have hax : a = x := by
          by_cases hxe : x = []
          · rw [if_pos hxe] at hfx
            exact Option.noConfusion hfx
          · rw [if_neg hxe] at hfx
            exact (Option.some.inj hfx).symm
        subst hax
        have hlowfix : ∀ c ∈ a, Char.toLower c = c := by
          intro c hc
          obtain ⟨m, hm2, hxm⟩ := List.mem_map.mp hx
          rw [← hxm] at hc
          obtain ⟨d, _, rfl⟩ := List.mem_map.mp hc
          exact toLower_toLower d
        have hanyf : (ANY_TOKENS.any fun tok => (compsOf s).any fun m => isInfixB tok m)
            = false := Bool.eq_false_iff.mpr hany
        have h5 := List.any_eq_false.mp hanyf (("any").toList) (by decide)
        have h6 : ((compsOf s).any fun m => isInfixB (("any").toList) m) = false :=
          Bool.eq_false_iff.mpr h5
        exact codeOf_props hlowfix
          (Bool.eq_false_iff.mpr (List.any_eq_false.mp h6 a hx)) hco
      set CH := sortCodes codes with hCH
      have hCHsub : ∀ chunk ∈ CH, chunk ∈ codes := fun chunk hc => sortCodes_mem.mp hc
      have hCHne : CH ≠ [] := by
        obtain ⟨x, hx⟩ := List.exists_mem_of_ne_nil codes hcn
        intro hh
        have hx2 : x ∈ CH := by
          rw [hCH]
          exact sortCodes_mem.mpr hx
        rw [hh] at hx2
        exact List.not_mem_nil x hx2
      have hchne : ∀ chunk ∈ CH, chunk ≠ [] := fun chunk hch =>
        (hQ chunk (hCHsub chunk hch)).1
      have hsplitt : splitC t = CH := by
        rw [← ht]
        exact splitC_joinC hCHne fun chunk hch => (hQ chunk (hCHsub chunk hch)).2.2.2.1
      have hupper : ∀ chunk ∈ CH, chunk.all Char.isUpper = true := by
        intro chunk hch
        exact (hQ chunk (hCHsub chunk hch)).2.2.2.2.2
          (halpha chunk (by rw [hsplitt]; exact hch))
      have hchnws : ∀ chunk ∈ CH, ∀ c ∈ chunk, c.isWhitespace = false :=
        fun chunk hch => (hQ chunk (hCHsub chunk hch)).2.2.1
      have htne : t ≠ [] := by
        intro hh
        have h0 : joinC CH = [] := by rw [ht, hh]
        rcases joinC_eq_nil_iff.mp h0 with h1 | h1
        · exact hCHne h1
        · exact hchne [] (by rw [h1]; simp) rfl
      rw [map_airlines_eq_core htne]
      have hlt : lowerL t = joinC (CH.map lowerL) := by rw [← ht, lowerL_joinC]
      have hsplitlt : splitC (lowerL t) = CH.map lowerL := by
        rw [hlt]
        refine splitC_joinC (by simpa using hCHne) ?cf
        intro x hx
        obtain ⟨chunk, hch, rfl⟩ := List.mem_map.mp hx
        exact lowerL_no_comma (hQ chunk (hCHsub chunk hch)).2.2.2.1
      have hlownws : ∀ chunk ∈ CH, ∀ c ∈ lowerL chunk, c.isWhitespace = false := by
        intro chunk hch c hc
        obtain ⟨d, hd, rfl⟩ := List.mem_map.mp hc
        exact not_ws_toLower (hchnws chunk hch d hd)
      have hcompst : compsOf t = CH.map lowerL := by
        unfold compsOf
        rw [hsplitlt]
        have hfixx : ∀ x ∈ CH.map lowerL, lowerL (trim x) = x := by
          intro x hx
          obtain ⟨chunk, hch, rfl⟩ := List.mem_map.mp hx
          rw [trim_eq_self_of_no_ws (hlownws chunk hch), lowerL_idem]
        exact Eq.trans (List.map_congr_left hfixx) (List.map_id _)
      rw [hcompst]
      unfold map_airlines_core
      have hany2 : (ANY_TOKENS.any fun tok => (CH.map lowerL).any fun m => isInfixB tok m)
          = false := by
        rw [List.any_eq_false]
        intro tok htok
        intro hcontra
        rw [List.any_eq_true] at hcontra
        obtain ⟨x, hx, hinf⟩ := hcontra
        obtain ⟨chunk, hch, rfl⟩ := List.mem_map.mp hx
        fin_cases htok <;>
          first
            | exact Bool.noConfusion
                ((hQ chunk (hCHsub chunk hch)).2.2.2.2.1.symm.trans hinf)
            | exact absurd
                (hlownws chunk hch ' ' ((isInfixB_iff.mp hinf).subset (by decide)))
                (by decide)
      rw [if_neg fun hh => Bool.noConfusion (hany2 ▸ hh)]
      dsimp only
      have hair2 : ((CH.map lowerL).filterMap fun a => if a = [] then none else some a)
          = CH.map lowerL := by
        have hsome : ∀ chunk ∈ CH,
            ((fun a => if a = [] then none else some a) ∘ lowerL) chunk
              = some (lowerL chunk) := by
          intro chunk hch
          show (if lowerL chunk = [] then none else some (lowerL chunk)) = some (lowerL chunk)
          rw [if_neg fun hh => hchne chunk hch (by rwa [lowerL, List.map_eq_nil_iff] at hh)]
        rw [List.filterMap_map]
        exact filterMap_eq_map_of hsome
      rw [hair2]
      have hcode2 : (CH.map lowerL).filterMap codeOf = CH := by
        have hsome2 : ∀ chunk ∈ CH, (codeOf ∘ lowerL) chunk = some (id chunk) := by
          intro chunk hch
          show codeOf (lowerL chunk) = some chunk
          unfold codeOf
          have hup := hupper chunk hch
          have hlen : (lowerL chunk).length ≤ 3 := by
            rw [lowerL, List.length_map]
            exact (hQ chunk (hCHsub chunk hch)).2.1
          have hne2 : lowerL chunk ≠ [] :=
            fun hh => hchne chunk hch (by rwa [lowerL, List.map_eq_nil_iff] at hh)
          have halpha2 : (lowerL chunk).all Char.isAlpha = true := by
            rw [List.all_eq_true]
            intro c hc
            obtain ⟨d, hd, rfl⟩ := List.mem_map.mp hc
            rw [Char.isAlpha, Bool.or_eq_true]
            exact Or.inr (isLower_toLower_of_isUpper (List.all_eq_true.mp hup d hd))
          rw [if_pos ⟨hlen, hne2, halpha2⟩]
          congr 1
          rw [lowerL, List.map_map]
          refine Eq.trans (List.map_congr_left ?hcg) (List.map_id _)
          intro d hd
          exact toUpper_toLower_of_isUpper (List.all_eq_true.mp hup d hd)
        rw [List.filterMap_map]
        exact Eq.trans (filterMap_eq_map_of hsome2) (List.map_id _)
      rw [hcode2, if_neg hCHne, hCH, sortCodes_idem, ← hCH, ht]


/-- C9: query normalization, amended.  The price cleanup `normalize_price` is
idempotent, and `map_airlines` is order-independent: permuting the
comma-separated airline names of the input (names themselves containing no
comma) never changes the output.  Idempotence of `map_airlines` itself is
false in general (see the counterexample: codes such as `6E` do not re-parse);
the amended idempotence half is restricted to runs whose output consists of
purely alphabetic comma-separated code chunks, where a second application is
the identity. -/
theorem query_normalization :
    (∀ x, normalize_price (normalize_price x) = normalize_price x) ∧
    (∀ ns ns2 : List (List Char), ns.Perm ns2 → (∀ n ∈ ns, (',') ∉ n) →
      map_airlines (some (joinC ns)) = map_airlines (some (joinC ns2))) ∧
    (∀ s t : List Char, map_airlines (some s) = some t →
      (∀ chunk ∈ splitC t, chunk.all Char.isAlpha = true) →
      map_airlines (some t) = some t) :=
  ⟨normalize_price_idem, fun _ _ h1 h2 => map_airlines_join_perm h1 h2,
    fun _ _ h1 h2 => map_airlines_restricted_idem h1 h2⟩

/-- Witness for C9 at concrete inputs: the price string `"usd 1,250"`, the
swapped airline lists `["indigo", " vistara "]`, and the fixed point
`"AI,UK"`. -/
theorem query_normalization_witness :
    normalize_price (normalize_price (some (("usd 1,250").toList)))
        = normalize_price (some (("usd 1,250").toList)) ∧
    map_airlines (some (joinC [("indigo").toList, (" vistara ").toList]))
        = map_airlines (some (joinC [(" vistara ").toList, ("indigo").toList])) ∧
    map_airlines (some (("AI,UK").toList)) = some (("AI,UK").toList) :=
  ⟨query_normalization.1 (some (("usd 1,250").toList)),
    query_normalization.2.1 [("indigo").toList, (" vistara ").toList]
      [(" vistara ").toList, ("indigo").toList]
      (List.Perm.swap ((" vistara ").toList) (("indigo").toList) []) (by decide),
    query_normalization.2.2 (("AI,UK").toList) (("AI,UK").toList) (by decide) (by decide)⟩

end FlightSpec
